import Mathlib

/-!
A shallow embedding of the httpx Go library (client.go, core.go, response.go
and the options file) together with proofs about its request-assembly and
response-classification pipeline.  Go byte strings are modelled as `List Nat`
(one element per byte), Go maps as association lists, and external
collaborators (encoding/json, encoding/xml, fmt, the multipart boundary
generator) as explicit function parameters bundled in `Codecs`.
-/

deriving instance DecidableEq for Except

namespace Httpx

/-- Byte strings: Go `[]byte`, and the bytes of a Go `string` where byte-level
behaviour matters (URLs, query strings, payloads). -/
abbrev ByteList := List Nat

/-- Canonical form of a header key.  Models the case-insensitive key
equivalence of `textproto.CanonicalMIMEHeaderKey` used by `http.Header.Set`
and `http.Header.Get`: two keys collide exactly when they agree up to ASCII
case, so each equivalence class is represented by its lowercase member. -/
def canonKey (k : String) : String := String.mk (k.data.map Char.toLower)

/-- Sets a header to a single value, replacing any entry with the same
canonical key (`http.Header.Set`). -/
def headerSet : List (String × String) → String → String → List (String × String)
  | [], k, v => [(canonKey k, v)]
  | (k0, v0) :: rest, k, v =>
      if k0 = canonKey k then (k0, v) :: rest
      else (k0, v0) :: headerSet rest k v

/-- Reads a header value; returns `""` when the key is absent
(`http.Header.Get`). -/
def headerGet : List (String × String) → String → String
  | [], _ => ""
  | (k0, v0) :: rest, k => if k0 = canonKey k then v0 else headerGet rest k

/-- One loop of `core.go: do` (lines 31-35 and 39-43): folds
`Set(key, values[0])` over a Go `http.Header` (an association list of key to
value list), skipping entries whose value list is empty. -/
def applyFirst (acc : List (String × String)) (hs : List (String × List String)) :
    List (String × String) :=
  hs.foldl (fun a kv =>
    match kv.2 with
    | [] => a
    | v :: _ => headerSet a kv.1 v) acc

/-- Header resolution of `core.go: do` lines 28-44: start from an empty
mapping, apply the client defaults, then the per-request overrides. -/
def resolveHeaders (clientHeaders requestHeaders : List (String × List String)) :
    List (String × String) :=
  applyFirst (applyFirst [] clientHeaders) requestHeaders

/-- HttpError of response.go lines 15-22. -/
structure HttpError where
  statusCode : Int
  status : String
  body : ByteList
  headers : List (String × List String)
  method : String
  url : String
deriving DecidableEq

/-- Response data relevant to the response helpers: the status line, the
fully-drained body bytes (a successful `io.ReadAll` of the stream), a header
snapshot, and the originating request method and URL string. -/
structure Response where
  statusCode : Int
  status : String
  bodyBytes : ByteList
  headers : List (String × List String)
  reqMethod : String
  reqUrl : String
deriving DecidableEq

/-- readBodyWithStatus of response.go lines 38-60: the body is drained, then a
2xx status returns the bytes and anything else returns an HttpError built from
the response and request data. -/
def readBodyWithStatus (res : Response) : Except HttpError ByteList :=
  if res.statusCode < 200 ∨ res.statusCode > 299 then
    .error ⟨res.statusCode, res.status, res.bodyBytes, res.headers,
            res.reqMethod, res.reqUrl⟩
  else .ok res.bodyBytes

/-- Bytes helper of response.go lines 64-66. -/
def Bytes (res : Response) : Except HttpError ByteList := readBodyWithStatus res

/-- Text helper of response.go lines 70-76; Go `string(b)` is the identity on
the underlying bytes, so the model returns the bytes themselves. -/
def Text (res : Response) : Except HttpError ByteList :=
  match readBodyWithStatus res with
  | .error e => .error e
  | .ok b => .ok b

/-- Error type of the typed decoders: either the HttpError produced by
readBodyWithStatus or a decode-failure message. -/
inductive RespError where
  | http : HttpError → RespError
  | decode : String → RespError
deriving DecidableEq

/-- JSON generic decoder of response.go lines 109-126.  `dflt` models Go
`var out T` (the zero value of `T`); `um` models `json.Unmarshal` specialised
to `T`.  An empty payload is returned as the zero value without invoking the
unmarshaller. -/
def JSON {T : Type} (dflt : T) (um : ByteList → Except String T) (res : Response) :
    Except RespError T :=
  match readBodyWithStatus res with
  | .error e => .error (.http e)
  | .ok b =>
      if b.length = 0 then .ok dflt
      else
        match um b with
        | .error m => .error (.decode ("httpx: failed to decode JSON: " ++ m))
        | .ok t => .ok t

set_option linter.unusedVariables false in
/-- XML generic decoder of response.go lines 154-167.  Unlike `JSON` there is
no empty-payload guard: the unmarshaller is invoked on whatever bytes were
drained.  `dflt` models Go `var out T` and is unused on the paths the model
distinguishes. -/
def XML {T : Type} (dflt : T) (um : ByteList → Except String T) (res : Response) :
    Except RespError T :=
  match readBodyWithStatus res with
  | .error e => .error (.http e)
  | .ok b =>
      match um b with
      | .error m => .error (.decode ("httpx: failed to decode XML: " ++ m))
      | .ok t => .ok t

/-- Config of client.go lines 30-46.  Durations are integer nanosecond counts
(Go `time.Duration` is an int64); `headers = none` models a nil `http.Header`
map, `some h` a non-nil one. -/
structure Config where
  headers : Option (List (String × List String))
  maxIdleConnections : Int
  connectionTimeout : Int
  requestTimeout : Int
deriving DecidableEq

/-- The state New builds: the resolved configuration stored on the client
together with the settings wired into the underlying `http.Client` and its
transport (client.go lines 79-96). -/
structure BuiltClient where
  cfgHeaders : List (String × List String)
  cfgMaxIdleConnections : Int
  cfgConnectionTimeout : Int
  cfgRequestTimeout : Int
  clientTimeout : Int
  maxIdleConnsPerHost : Int
  responseHeaderTimeout : Int
  dialTimeout : Int
deriving DecidableEq

/-- New of client.go lines 52-97: each zero or nil field of the caller config
is replaced by its default (5 idle connections, zero timeouts, empty header
map), then the http.Client and transport are built from the resolved values. -/
def New (cfg : Option Config) : BuiltClient :=
  let dHeaders : List (String × List String) :=
    match cfg with
    | none => []
    | some c => match c.headers with
      | none => []
      | some h => h
  let dMaxIdle : Int :=
    match cfg with
    | none => 5
    | some c => if c.maxIdleConnections ≠ 0 then c.maxIdleConnections else 5
  let dConnTimeout : Int :=
    match cfg with
    | none => 0
    | some c => if c.connectionTimeout ≠ 0 then c.connectionTimeout else 0
  let dReqTimeout : Int :=
    match cfg with
    | none => 0
    | some c => if c.requestTimeout ≠ 0 then c.requestTimeout else 0
  { cfgHeaders := dHeaders
    cfgMaxIdleConnections := dMaxIdle
    cfgConnectionTimeout := dConnTimeout
    cfgRequestTimeout := dReqTimeout
    clientTimeout := dReqTimeout
    maxIdleConnsPerHost := dMaxIdle
    responseHeaderTimeout := dReqTimeout
    dialTimeout := dConnTimeout }

/-! URL and query-string model.  `core.go: do` lines 172-185 call into
`net/url`: `url.Parse`, `URL.Query` (which is `ParseQuery` on `RawQuery`
ignoring the error), `Values.Set`, `Values.Encode` and `URL.String`.  These
collaborators are modelled below at the byte level, faithfully to the parts
the pipeline exercises: splitting off fragment and query, query-unescaping
and escaping, sorting on encode, and reassembly.  Structural normalisation
of scheme, host and path performed by `url.Parse` or `URL.String` is
query-irrelevant and is modelled as passthrough of the pre-query prefix. -/

/-- Go `strings.Cut` at a single byte: the part before the first occurrence
of `sep` and the part after it (`(s, [])` when `sep` does not occur). -/
def cutByte (sep : Nat) : ByteList → ByteList × ByteList
  | [] => ([], [])
  | b :: rest =>
      if b = sep then ([], rest)
      else
        let r := cutByte sep rest
        (b :: r.1, r.2)

/-- Bytes that `url.QueryEscape` leaves unescaped: ASCII letters, digits and
`-`, `.`, `_`, `~`. -/
def isUnreservedByte (b : Nat) : Bool :=
  (48 ≤ b && b ≤ 57) || (65 ≤ b && b ≤ 90) || (97 ≤ b && b ≤ 122) ||
    b = 45 || b = 46 || b = 95 || b = 126

/-- Uppercase hexadecimal digit byte for a value below 16. -/
def hexDigitByte (n : Nat) : Nat := if n < 10 then 48 + n else 55 + n

/-- Escapes one byte the way `url.QueryEscape` does: space becomes `+`,
unreserved bytes pass through, everything else becomes `%XX`. -/
def escapeByte (b : Nat) : ByteList :=
  if b = 32 then [43]
  else if isUnreservedByte b then [b]
  else [37, hexDigitByte (b / 16), hexDigitByte (b % 16)]

/-- `url.QueryEscape` over a byte string. -/
def queryEscape (s : ByteList) : ByteList := s.flatMap escapeByte

/-- Value of one hexadecimal digit byte, or `none`. -/
def hexVal (c : Nat) : Option Nat :=
  if 48 ≤ c ∧ c ≤ 57 then some (c - 48)
  else if 65 ≤ c ∧ c ≤ 70 then some (c - 55)
  else if 97 ≤ c ∧ c ≤ 102 then some (c - 87)
  else none

/-- `url.QueryUnescape`: `%XX` decodes, `+` becomes space, anything else
passes through; a malformed or truncated escape fails. -/
def queryUnescape : ByteList → Option ByteList
  | [] => some []
  | b :: rest =>
      if b = 37 then
        match rest with
        | h :: l :: rest2 =>
            match hexVal h, hexVal l with
            | some hv, some lv => (queryUnescape rest2).map (fun r => (hv * 16 + lv) :: r)
            | _, _ => none
        | _ => none
      else if b = 43 then (queryUnescape rest).map (fun r => 32 :: r)
      else (queryUnescape rest).map (fun r => b :: r)

/-- Splits a byte string on a separator byte; always returns at least one
(possibly empty) component, like `strings.Split`. -/
def splitOnByte (sep : Nat) : ByteList → List ByteList
  | [] => [[]]
  | b :: rest =>
      match splitOnByte sep rest with
      | [] => [[]]
      | cur :: acc => if b = sep then [] :: cur :: acc else (b :: cur) :: acc

/-- Joins components with a separator byte (inverse of `splitOnByte`). -/
def joinSep (sep : Nat) : List ByteList → ByteList
  | [] => []
  | [x] => x
  | x :: y :: rest => x ++ sep :: joinSep sep (y :: rest)

/-- `url.Values`: a Go map from key to list of values, modelled as an
association list in insertion order. -/
abbrev Values := List (ByteList × List ByteList)

/-- Appends a value under a key (`Values.Add`, used by `ParseQuery`). -/
def valuesAdd : Values → ByteList → ByteList → Values
  | [], k, v => [(k, [v])]
  | (k0, l) :: rest, k, v =>
      if k0 = k then (k0, l ++ [v]) :: rest
      else (k0, l) :: valuesAdd rest k v

/-- Replaces all values under a key with a single one (`Values.Set`). -/
def valuesSet : Values → ByteList → ByteList → Values
  | [], k, v => [(k, [v])]
  | (k0, l) :: rest, k, v =>
      if k0 = k then (k0, [v]) :: rest
      else (k0, l) :: valuesSet rest k v

/-- Looks a key up in a `Values` map. -/
def valuesGet? : Values → ByteList → Option (List ByteList)
  | [], _ => none
  | (k0, l) :: rest, k => if k0 = k then some l else valuesGet? rest k

/-- The keys of a `Values` map, in order. -/
def valuesKeys (vs : Values) : List ByteList := vs.map Prod.fst

/-- One step of `url.ParseQuery`: skip an empty component or one containing a
`;`, cut at the first `=`, query-unescape key and value, skip the pair when
unescaping fails, otherwise add it. -/
def parseQueryStep (m : Values) (comp : ByteList) : Values :=
  if comp = [] then m
  else if 59 ∈ comp then m
  else
    let kv := cutByte 61 comp
    match queryUnescape kv.1, queryUnescape kv.2 with
    | some k, some v => valuesAdd m k v
    | _, _ => m

/-- `url.ParseQuery` as invoked by `URL.Query` (errors discarded): split on
`&` and fold the per-component step over the components. -/
def parseQuery (raw : ByteList) : Values :=
  (splitOnByte 38 raw).foldl parseQueryStep []

/-- Lexicographic byte-string order used by `Values.Encode` when sorting
keys (Go string comparison). -/
def lexLe : ByteList → ByteList → Bool
  | [], _ => true
  | _ :: _, [] => false
  | a :: as, b :: bs => if a < b then true else if b < a then false else lexLe as bs

/-- Insertion into a key-sorted `Values` list. -/
def insertSorted (x : ByteList × List ByteList) : Values → Values
  | [] => [x]
  | y :: ys => if lexLe x.1 y.1 then x :: y :: ys else y :: insertSorted x ys

/-- Sorts a `Values` list by key (`Values.Encode` sorts its keys). -/
def sortByKey (vs : Values) : Values := vs.foldr insertSorted []

/-- `Values.Encode`: keys sorted, each value emitted as
`escape(key)=escape(value)`, components joined with `&`. -/
def valuesEncode (vs : Values) : ByteList :=
  joinSep 38 ((sortByKey vs).flatMap (fun p => p.2.map (fun v =>
    queryEscape p.1 ++ 61 :: queryEscape v)))

/-- The components of a parsed URL that the pipeline touches: the pre-query
prefix (scheme, authority, path), the raw query, the fragment, and Go's
`ForceQuery` flag (a URL ending in a lone `?`). -/
structure UrlParts where
  base : ByteList
  rawQuery : ByteList
  frag : ByteList
  forceQuery : Bool
deriving DecidableEq

/-- `url.Parse` restricted to what the pipeline observes: fails on ASCII
control characters (as Go does), otherwise cuts the fragment at the first
`#`, then detects a lone trailing `?` (ForceQuery) or cuts the query at the
first `?`.  Scheme, host and path validation or normalisation beyond this is
query-irrelevant and omitted. -/
def parseUrl (uri : ByteList) : Except Unit UrlParts :=
  if uri.any (fun b => b < 32 || b = 127) then .error ()
  else if (cutByte 35 uri).1.getLast? = some 63 ∧ (cutByte 35 uri).1.count 63 = 1 then
    .ok ⟨(cutByte 35 uri).1.dropLast, [], (cutByte 35 uri).2, true⟩
  else
    .ok ⟨(cutByte 63 (cutByte 35 uri).1).1, (cutByte 63 (cutByte 35 uri).1).2,
         (cutByte 35 uri).2, false⟩

/-- `URL.String` on the model: base, then `?query` when forced or non-empty,
then `#fragment` when non-empty. -/
def uString (u : UrlParts) : ByteList :=
  u.base ++ (if u.forceQuery || u.rawQuery ≠ [] then 63 :: u.rawQuery else [])
         ++ (if u.frag ≠ [] then 35 :: u.frag else [])

/-- The query component of a URL string: everything after the first `?` of
the part before the first `#`. -/
def queryPartOf (s : ByteList) : ByteList := (cutByte 63 (cutByte 35 s).1).2

/-- Query-parameter merging of `core.go: do` lines 172-185: parse the URL,
parse its existing query, `Set` each caller-supplied parameter over it,
re-encode and reassemble the URL.  A parse failure is returned as-is
(the MalformedURLError of the spec). -/
def appendParams (uri : ByteList) (params : List (ByteList × ByteList)) :
    Except Unit ByteList :=
  match parseUrl uri with
  | .error e => .error e
  | .ok u =>
      let q := parseQuery u.rawQuery
      let q2 := params.foldl (fun acc kv => valuesSet acc kv.1 kv.2) q
      .ok (uString ⟨u.base, valuesEncode q2, u.frag, u.forceQuery⟩)

/-! Body encoder and request assembly (`core.go: do`, options file). -/

/-- A Go `any` body value, split by the dynamic type tests the encoder
performs: `string`, `[]byte`, `map[string]string`, `url.Values`,
`map[string]any`, an `io.Reader` (represented by the bytes it drains to),
and any other serialisable value (tagged opaquely). -/
inductive GoValue where
  | vstr : String → GoValue
  | vbytes : ByteList → GoValue
  | vmapSS : List (String × String) → GoValue
  | vurlValues : List (String × List String) → GoValue
  | vmapAny : List (String × GoValue) → GoValue
  | vreader : ByteList → GoValue
  | vother : Nat → GoValue

/-- External collaborators of the encoder: `json.Marshal`, `xml.Marshal`,
`fmt.Sprintf("%v", ·)` and the random multipart boundary drawn by
`multipart.NewWriter`. -/
structure Codecs where
  jsonMarshal : GoValue → Except String ByteList
  xmlMarshal : GoValue → Except String ByteList
  sprintf : GoValue → ByteList
  boundary : String

/-- One part written to the multipart body: a form field
(`Writer.WriteField key value`) or a file part
(`Writer.CreateFormFile key key` followed by writing the bytes). -/
inductive Part where
  | field : String → String → Part
  | file : String → String → ByteList → Part
deriving DecidableEq

/-- ASCII bytes of a Lean string (multipart framing is pure ASCII). -/
def strBytes (s : String) : ByteList := s.data.map Char.toNat

/-- Quote escaping of `mime/multipart` for names inside
`Content-Disposition` (backslash and double quote are prefixed with a
backslash). -/
def escapeQuotes (s : String) : String :=
  String.mk (s.data.flatMap (fun c =>
    if c = '"' || c = '\\' then ['\\', c] else [c]))

/-- Serialised form of one part, without the boundary framing, following
`mime/multipart.Writer`: the part headers, a blank line, the content. -/
def partBytes (p : Part) : ByteList :=
  match p with
  | .field name value =>
      strBytes ("Content-Disposition: form-data; name=\"" ++ escapeQuotes name
        ++ "\"\r\n\r\n" ++ value)
  | .file name filename content =>
      strBytes ("Content-Disposition: form-data; name=\"" ++ escapeQuotes name
        ++ "\"; filename=\"" ++ escapeQuotes filename
        ++ "\"\r\nContent-Type: application/octet-stream\r\n\r\n") ++ content

/-- Full multipart payload for a boundary and a list of parts, as produced by
`mime/multipart.Writer` after `Close`: each part framed by
`--boundary\r\n`, separated by `\r\n`, terminated by `\r\n--boundary--\r\n`. -/
def multipartBytes (boundary : String) (parts : List Part) : ByteList :=
  (if parts = [] then strBytes "\r\n" else []) ++
  (parts.flatMap (fun p => strBytes ("--" ++ boundary ++ "\r\n") ++ partBytes p
      ++ strBytes "\r\n"))
  ++ strBytes ("--" ++ boundary ++ "--\r\n")

/-- `Writer.FormDataContentType`. -/
def formDataContentType (boundary : String) : String :=
  "multipart/form-data; boundary=" ++ boundary

/-- The field loop of the multipart branch (`core.go` lines 109-131): string
values become form fields, byte slices become file parts named and
filenamed after their key, anything else aborts with the unsupported-type
error. -/
def multipartParts : List (String × GoValue) → Except String (List Part)
  | [] => .ok []
  | (k, v) :: rest =>
      match v with
      | .vbytes b =>
          match multipartParts rest with
          | .error e => .error e
          | .ok ps => .ok (Part.file k k b :: ps)
      | .vstr s =>
          match multipartParts rest with
          | .error e => .error e
          | .ok ps => .ok (Part.field k s :: ps)
      | _ => .error ("unsupported multipart field type for key " ++ k)

/-- Content-Type normalisation of `core.go` line 59:
`strings.ToLower(strings.Split(ct, ";")[0])` — the text before the first
semicolon, lowercased. -/
def normalizeCT (ct : String) : String :=
  String.mk ((ct.data.takeWhile (fun c => c ≠ ';')).map Char.toLower)

/-- The content types with a dedicated branch in the encoder switch. -/
def knownContentTypes : List String :=
  ["application/json", "application/x-www-form-urlencoded", "application/xml",
   "text/xml", "multipart/form-data", "text/plain", "application/octet-stream"]

/-- Error taxonomy of the pipeline, labelling the distinct `return nil, err`
sites of `core.go: do`. -/
inductive DoError where
  | invalidRequest : String → DoError
  | encoding : String → DoError
  | malformedUrl : DoError
  | newRequestFailed : DoError
deriving DecidableEq

/-- The encoder switch of `core.go` lines 69-154, dispatching on an already
normalised content type.  Returns the encoded payload and the (possibly
multipart-rewritten) headers. -/
def dispatch (cs : Codecs) (ct : String) (rh : List (String × String))
    (b : GoValue) : Except DoError (ByteList × List (String × String)) :=
  if ct = "application/json" then
    match cs.jsonMarshal b with
    | .error e => .error (.encoding e)
    | .ok bs => .ok (bs, rh)
  else if ct = "application/x-www-form-urlencoded" then
    match b with
    | .vmapSS m =>
        .ok (valuesEncode (m.foldl (fun acc kv =>
          valuesSet acc (strBytes kv.1) (strBytes kv.2)) []), rh)
    | .vurlValues vs =>
        .ok (valuesEncode (vs.map (fun kv =>
          (strBytes kv.1, kv.2.map strBytes))), rh)
    | _ => .error (.encoding
        "body must be map[string]string or url.Values for x-www-form-urlencoded")
  else if ct = "application/xml" || ct = "text/xml" then
    match cs.xmlMarshal b with
    | .error e => .error (.encoding e)
    | .ok bs => .ok (bs, rh)
  else if ct = "multipart/form-data" then
    let rh2 := headerSet rh "Content-Type" (formDataContentType cs.boundary)
    match b with
    | .vmapAny fields =>
        match multipartParts fields with
        | .error e => .error (.encoding e)
        | .ok parts => .ok (multipartBytes cs.boundary parts, rh2)
    | _ => .error (.encoding "multipart/form-data requires body = map[string]any")
  else if ct = "text/plain" then .ok (cs.sprintf b, rh)
  else if ct = "application/octet-stream" then
    match b with
    | .vbytes bs => .ok (bs, rh)
    | .vreader bs => .ok (bs, rh)
    | _ => .error (.encoding "octet-stream requires []byte or io.Reader body")
  else
    match cs.jsonMarshal b with
    | .error e => .error (.encoding e)
    | .ok bs => .ok (bs, rh)

/-- Lines 59 and 69-154 of `core.go` together: compute the normalised
content type from the resolved headers, then dispatch. -/
def encodeBody (cs : Codecs) (rh : List (String × String)) (b : GoValue) :
    Except DoError (ByteList × List (String × String)) :=
  dispatch cs (normalizeCT (headerGet rh "Content-Type")) rh b

/-- Content-Type defaulting of `core.go` lines 53-56: when a body is present
and the resolved headers carry no Content-Type, set `application/json`. -/
def withDefaultCT (rh : List (String × String)) (bodyPresent : Bool) :
    List (String × String) :=
  if bodyPresent && headerGet rh "Content-Type" = "" then
    headerSet rh "Content-Type" "application/json"
  else rh

/-- RequestOptions (options file): per-request headers, optional query
parameters (byte-level, matching the URL model), optional body.
`buildOptions` initialises absent headers to an empty map, which the empty
list also models. -/
structure RequestOptions where
  headers : List (String × List String)
  params : Option (List (ByteList × ByteList))
  body : Option GoValue

/-- The transport-ready request handed to `http.Client.Do`: resolved
headers, final URL, and the optional payload — `none` models a nil
`bodyReader` (no payload at all), `some []` an empty payload. -/
structure AssembledRequest where
  headers : List (String × String)
  url : ByteList
  payload : Option ByteList
deriving DecidableEq

/-- Token characters accepted by `http.NewRequest` in a method name
(RFC 7230 tchar), by byte value. -/
def isTchar (n : Nat) : Bool :=
  (48 ≤ n && n ≤ 57) || (65 ≤ n && n ≤ 90) || (97 ≤ n && n ≤ 122) ||
    n ∈ [33, 35, 36, 37, 38, 39, 42, 43, 45, 46, 94, 95, 96, 124, 126]

/-- Method validity check performed by `http.NewRequest`. -/
def validMethod (m : String) : Bool :=
  m ≠ "" && m.data.all (fun c => isTchar c.toNat)

/-- `client.do` of `core.go` lines 23-201, up to the hand-off to the
transport: header resolution, GET body rejection, Content-Type defaulting,
body encoding, query-parameter merging, and request construction
(`http.NewRequest`, whose URL re-parse and method check are modelled).
Everything it returns happens before any network activity; the transport
exchange is a separate, later stage. -/
def doRequest (cs : Codecs) (clientHeaders : List (String × List String))
    (method : String) (uri : ByteList) (o : RequestOptions) :
    Except DoError AssembledRequest :=
  let rh := resolveHeaders clientHeaders o.headers
  if method = "GET" && o.body.isSome then
    .error (.invalidRequest "GET request cannot contain a body")
  else
    let rh := withDefaultCT rh o.body.isSome
    let enc : Except DoError (Option ByteList × List (String × String)) :=
      match o.body with
      | some b =>
          if method ≠ "GET" then
            match encodeBody cs rh b with
            | .error e => .error e
            | .ok r => .ok (some r.1, r.2)
          else .ok (none, rh)
      | none => .ok (none, rh)
    match enc with
    | .error e => .error e
    | .ok pr =>
        let urlStep : Except DoError ByteList :=
          match o.params with
          | none => .ok uri
          | some ps =>
              match appendParams uri ps with
              | .error _ => .error .malformedUrl
              | .ok u2 => .ok u2
        match urlStep with
        | .error e => .error e
        | .ok finalUri =>
            if validMethod method && (parseUrl finalUri).isOk then
              .ok ⟨pr.2, finalUri, pr.1⟩
            else .error .newRequestFailed

/-- `client.Get` (client.go lines 106-108). -/
def Get (cs : Codecs) (ch : List (String × List String)) (uri : ByteList)
    (o : RequestOptions) : Except DoError AssembledRequest :=
  doRequest cs ch "GET" uri o

/-- `client.Delete` (client.go lines 136-138): the options — including any
body set through `WithBody` — are passed to `do` unchanged. -/
def Delete (cs : Codecs) (ch : List (String × List String)) (uri : ByteList)
    (o : RequestOptions) : Except DoError AssembledRequest :=
  doRequest cs ch "DELETE" uri o

/-! Concrete fixtures used to evaluate the model at specific inputs. -/

/-- A 204 No Content response with an empty body. -/
def r204 : Response := ⟨204, "204 No Content", [], [], "GET", "http://api.example/item"⟩

/-- A 404 response carrying a two-byte body and one header. -/
def r404 : Response :=
  ⟨404, "404 Not Found", [104, 105], [("X-Req", ["1"])], "GET", "http://api.example/nope"⟩

/-- Modelled from the Go standard library: `encoding/xml.Unmarshal` returns
the error `io.EOF` when given an empty document, never a value.  This is that
behaviour specialised to a `Nat`-valued target (non-empty inputs are
irrelevant to the claims that use it and decode to `0`). -/
def xmlUnmarshalEOF : ByteList → Except String Nat :=
  fun b => if b = [] then .error "EOF" else .ok 0

/-- A concrete collaborator bundle: a JSON marshaller returning `null`
(bytes of the string `null`), an XML marshaller returning an empty document,
a `%v` formatter returning `s`, and a fixed boundary. -/
def csProbe : Codecs :=
  ⟨fun _ => .ok [110, 117, 108, 108], fun _ => .ok [], fun _ => [115], "b1"⟩

/-- Options carrying only a body, as produced by `buildOptions` from a single
`WithBody` option. -/
def bodyOpts : RequestOptions := ⟨[], none, some (.vstr "x")⟩

/-! Helper lemmas about the header model. -/

theorem headerGet_congr (h : List (String × String)) (k k' : String)
    (hk : canonKey k = canonKey k') : headerGet h k = headerGet h k' := by
  induction h with
  | nil => rfl
  | cons p rest ih =>
      obtain ⟨k0, v0⟩ := p
      simp only [headerGet, hk, ih]

theorem headerGet_headerSet (h : List (String × String)) (k v k' : String) :
    headerGet (headerSet h k v) k' =
      if canonKey k = canonKey k' then v else headerGet h k' := by
  induction h with
  | nil => simp only [headerSet, headerGet]
  | cons p rest ih =>
      obtain ⟨k0, v0⟩ := p
      by_cases h0 : k0 = canonKey k
      · subst h0
        by_cases h1 : canonKey k = canonKey k' <;>
          simp [headerSet, headerGet, h1]
      · by_cases h1 : k0 = canonKey k'
        · have h2 : ¬ canonKey k = canonKey k' := fun he => h0 (he ▸ h1)
          have h3 : ¬ canonKey k' = canonKey k := fun he => h2 he.symm
          simp [headerSet, headerGet, h0, h1, h2, h3]
        · simp [headerSet, headerGet, h0, h1, ih]

theorem applyFirst_cons_nil (acc : List (String × String)) (k0 : String)
    (rest : List (String × List String)) :
    applyFirst acc ((k0, []) :: rest) = applyFirst acc rest := rfl

theorem applyFirst_cons_val (acc : List (String × String)) (k0 v : String)
    (vs : List String) (rest : List (String × List String)) :
    applyFirst acc ((k0, v :: vs) :: rest) =
      applyFirst (headerSet acc k0 v) rest := rfl

theorem applyFirst_get_of_not_mem (hs : List (String × List String))
    (acc : List (String × String)) (k : String)
    (h : ∀ kv ∈ hs, canonKey kv.1 ≠ canonKey k) :
    headerGet (applyFirst acc hs) k = headerGet acc k := by
  induction hs generalizing acc with
  | nil => rfl
  | cons p rest ih =>
      obtain ⟨k0, vs⟩ := p
      have hk0 : canonKey k0 ≠ canonKey k := h (k0, vs) (by simp)
      cases vs with
      | nil =>
          rw [applyFirst_cons_nil]
          exact ih acc (fun kv hkv => h kv (by simp [hkv]))
      | cons v vs' =>
          rw [applyFirst_cons_val]
          rw [ih (headerSet acc k0 v) (fun kv hkv => h kv (by simp [hkv]))]
          rw [headerGet_headerSet]
          simp [hk0]

theorem applyFirst_get_mem (hs : List (String × List String))
    (acc : List (String × String)) (k v : String) (vs : List String)
    (hmem : (k, v :: vs) ∈ hs)
    (hnd : (hs.map fun p => canonKey p.1).Nodup) :
    headerGet (applyFirst acc hs) k = v := by
  induction hs generalizing acc with
  | nil => cases hmem
  | cons p rest ih =>
      rw [List.map_cons, List.nodup_cons] at hnd
      rcases List.mem_cons.mp hmem with heq | htail
      · subst heq
        rw [applyFirst_cons_val]
        have hrest : ∀ kv ∈ rest, canonKey kv.1 ≠ canonKey k := by
          intro kv hkv hc
          exact hnd.1 (List.mem_map.mpr ⟨kv, hkv, hc⟩)
        rw [applyFirst_get_of_not_mem rest _ k hrest]
        rw [headerGet_headerSet]
        simp
      · obtain ⟨k0, vs⟩ := p
        cases vs with
        | nil =>
            rw [applyFirst_cons_nil]
            exact ih _ htail hnd.2
        | cons v0 vs' =>
            rw [applyFirst_cons_val]
            exact ih _ htail hnd.2

/-- C4: header precedence resolution.  The resolved mapping takes the first
value only of each default header, then the first value only of each
override header, an override overwriting any default whose key agrees
case-insensitively; lookups themselves are case-insensitive. -/
theorem headerPrecedence (defaults overrides : List (String × List String)) :
    (∀ k v vs, (k, v :: vs) ∈ overrides →
      ((overrides.map fun p => canonKey p.1).Nodup) →
      headerGet (resolveHeaders defaults overrides) k = v) ∧
    (∀ k v vs, (k, v :: vs) ∈ defaults →
      ((defaults.map fun p => canonKey p.1).Nodup) →
      (∀ kv ∈ overrides, canonKey kv.1 ≠ canonKey k) →
      headerGet (resolveHeaders defaults overrides) k = v) ∧
    (∀ (h : List (String × String)) (k k' : String), canonKey k = canonKey k' →
      headerGet h k = headerGet h k') := by
  refine ⟨?_, ?_, headerGet_congr⟩
  · intro k v vs hmem hnd
    exact applyFirst_get_mem overrides _ k v vs hmem hnd
  · intro k v vs hmem hnd hnone
    unfold resolveHeaders
    rw [applyFirst_get_of_not_mem overrides _ k hnone]
    exact applyFirst_get_mem defaults _ k v vs hmem hnd

/-- Witness for `headerPrecedence` at concrete mappings: the override wins
on the shared (case-insensitively equal) key, the untouched default key
keeps its first value. -/
theorem headerPrecedence_witness :
    headerGet (resolveHeaders [("Accept", ["text/html"]), ("X-A", ["1", "2"])]
      [("ACCEPT", ["application/json", "zzz"])]) "ACCEPT" = "application/json" ∧
    headerGet (resolveHeaders [("Accept", ["text/html"]), ("X-A", ["1", "2"])]
      [("ACCEPT", ["application/json", "zzz"])]) "X-A" = "1" := by
  constructor
  · exact (headerPrecedence _ _).1 "ACCEPT" "application/json" ["zzz"]
      (by decide) (by decide)
  · exact (headerPrecedence _ _).2.1 "X-A" "1" ["2"] (by decide) (by decide)
      (by decide)

/-- C10: client construction.  A nil config yields all defaults; a zero
`MaxIdleConnections` is replaced by 5 (also when passed explicitly), the
zero timeouts stay zero (unbounded), nil headers become an empty map, and no
configuration can produce a transport with zero idle connections per
host. -/
theorem newDefaults :
    New none = ⟨[], 5, 0, 0, 0, 5, 0, 0⟩ ∧
    (∀ cfg : Config,
      (New (some cfg)).maxIdleConnsPerHost =
        (if cfg.maxIdleConnections = 0 then 5 else cfg.maxIdleConnections) ∧
      (New (some cfg)).cfgMaxIdleConnections = (New (some cfg)).maxIdleConnsPerHost ∧
      (New (some cfg)).clientTimeout = cfg.requestTimeout ∧
      (New (some cfg)).responseHeaderTimeout = cfg.requestTimeout ∧
      (New (some cfg)).dialTimeout = cfg.connectionTimeout ∧
      (New (some cfg)).cfgHeaders = cfg.headers.getD []) ∧
    (∀ cfg : Option Config, (New cfg).maxIdleConnsPerHost ≠ 0) := by
  refine ⟨by decide, ?_, ?_⟩
  · intro cfg
    obtain ⟨hd, mi, ct, rt⟩ := cfg
    refine ⟨?_, ?_, ?_, ?_, ?_, ?_⟩
    · by_cases h : mi = 0 <;> simp [New, h]
    · by_cases h : mi = 0 <;> simp [New, h]
    · by_cases h : rt = 0 <;> simp [New, h]
    · by_cases h : rt = 0 <;> simp [New, h]
    · by_cases h : ct = 0 <;> simp [New, h]
    · cases hd <;> simp [New]
  · intro cfg
    cases cfg with
    | none => decide
    | some c =>
        simp only [New]
        split_ifs with h
        · exact h
        · decide

/-- C2: response classification.  Reading the body via the helpers succeeds
exactly for status codes 200-299; any other status yields an HttpError whose
fields are the response status code and text, the fully-drained body bytes,
the header snapshot, and the originating method and URL; the typed decoders
surface that same HttpError and produce one for no other status. -/
theorem responseClassification {T : Type} (dflt : T)
    (um : ByteList → Except String T) (r : Response) :
    ((∃ b, Bytes r = .ok b) ↔ 200 ≤ r.statusCode ∧ r.statusCode ≤ 299) ∧
    (200 ≤ r.statusCode ∧ r.statusCode ≤ 299 →
      Bytes r = .ok r.bodyBytes ∧ Text r = .ok r.bodyBytes) ∧
    (r.statusCode < 200 ∨ r.statusCode > 299 →
      Bytes r = .error ⟨r.statusCode, r.status, r.bodyBytes, r.headers,
        r.reqMethod, r.reqUrl⟩ ∧
      Text r = .error ⟨r.statusCode, r.status, r.bodyBytes, r.headers,
        r.reqMethod, r.reqUrl⟩ ∧
      JSON dflt um r = .error (.http ⟨r.statusCode, r.status, r.bodyBytes,
        r.headers, r.reqMethod, r.reqUrl⟩) ∧
      XML dflt um r = .error (.http ⟨r.statusCode, r.status, r.bodyBytes,
        r.headers, r.reqMethod, r.reqUrl⟩)) ∧
    ((∃ e, JSON dflt um r = .error (.http e)) ↔
      (r.statusCode < 200 ∨ r.statusCode > 299)) ∧
    ((∃ e, XML dflt um r = .error (.http e)) ↔
      (r.statusCode < 200 ∨ r.statusCode > 299)) := by
  by_cases h : r.statusCode < 200 ∨ r.statusCode > 299
  · have hnot : ¬ (200 ≤ r.statusCode ∧ r.statusCode ≤ 299) := by omega
    refine ⟨?_, ?_, ?_, ?_, ?_⟩
    · simp [Bytes, readBodyWithStatus, if_pos h, hnot]
    · intro h2; omega
    · intro _
      refine ⟨?_, ?_, ?_, ?_⟩ <;>
        simp [Bytes, Text, JSON, XML, readBodyWithStatus, if_pos h]
    · simp [JSON, readBodyWithStatus, if_pos h, h]
    · simp [XML, readBodyWithStatus, if_pos h, h]
  · have h2 : 200 ≤ r.statusCode ∧ r.statusCode ≤ 299 := by omega
    refine ⟨?_, ?_, ?_, ?_, ?_⟩
    · simp [Bytes, readBodyWithStatus, if_neg h, h2]
    · intro _
      constructor <;> simp [Bytes, Text, readBodyWithStatus, if_neg h]
    · intro hc; omega
    · simp only [JSON, readBodyWithStatus, if_neg h]
      constructor
      · rintro ⟨e, he⟩
        split at he <;> [skip; split at he] <;> simp_all
      · intro hc; exact absurd hc h
    · simp only [XML, readBodyWithStatus, if_neg h]
      constructor
      · rintro ⟨e, he⟩
        split at he <;> simp_all
      · intro hc; exact absurd hc h

/-- Witness for `responseClassification`: at the concrete 404 response the
helpers return the fully-populated HttpError, and at the 204 response the
read succeeds. -/
theorem responseClassification_witness :
    (Bytes r404 = .error ⟨404, "404 Not Found", [104, 105], [("X-Req", ["1"])],
      "GET", "http://api.example/nope"⟩ ∧
     Text r404 = .error ⟨404, "404 Not Found", [104, 105], [("X-Req", ["1"])],
      "GET", "http://api.example/nope"⟩ ∧
     JSON (0 : Nat) (fun _ => .ok 0) r404 = .error (.http ⟨404, "404 Not Found",
      [104, 105], [("X-Req", ["1"])], "GET", "http://api.example/nope"⟩) ∧
     XML (0 : Nat) (fun _ => .ok 0) r404 = .error (.http ⟨404, "404 Not Found",
      [104, 105], [("X-Req", ["1"])], "GET", "http://api.example/nope"⟩)) ∧
    (Bytes r204 = .ok [] ∧ Text r204 = .ok []) := by
  constructor
  · exact (responseClassification (0 : Nat) (fun _ => .ok 0) r404).2.2.1
      (by decide)
  · exact (responseClassification (0 : Nat) (fun _ => .ok 0) r204).2.1
      (by decide)

/-- Counterexample to C3 as stated: on a 204 response with empty body the
typed XML decode does not return the zero value without error — the XML
unmarshaller (which fails with `io.EOF` on an empty document) is invoked
and its failure is wrapped into a decode error. -/
theorem xmlEmptyBodyErrors :
    XML (0 : Nat) xmlUnmarshalEOF r204 =
      .error (.decode "httpx: failed to decode XML: EOF") ∧
    XML (0 : Nat) xmlUnmarshalEOF r204 ≠ .ok 0 := by
  constructor <;> decide

/-- C3 amended: on a 2xx response with an empty body the typed JSON decode
skips decoding and returns the zero value with no error, while the typed
XML decode invokes the unmarshaller on the empty payload and mirrors its
outcome. -/
theorem emptyBodyDecoders {T : Type} (dflt : T)
    (jum xum : ByteList → Except String T) (r : Response)
    (h2xx : 200 ≤ r.statusCode ∧ r.statusCode ≤ 299)
    (hempty : r.bodyBytes = []) :
    JSON dflt jum r = .ok dflt ∧
    XML dflt xum r =
      (match xum [] with
       | .error m => .error (.decode ("httpx: failed to decode XML: " ++ m))
       | .ok t => .ok t) := by
  have h : ¬ (r.statusCode < 200 ∨ r.statusCode > 299) := by omega
  constructor
  · simp [JSON, readBodyWithStatus, if_neg h, hempty]
  · simp [XML, readBodyWithStatus, if_neg h, hempty]

/-- Witness for `emptyBodyDecoders` at the concrete 204 response with the
EOF-on-empty XML unmarshaller. -/
theorem emptyBodyDecoders_witness :
    JSON (0 : Nat) xmlUnmarshalEOF r204 = .ok 0 ∧
    XML (0 : Nat) xmlUnmarshalEOF r204 =
      .error (.decode "httpx: failed to decode XML: EOF") := by
  have h := emptyBodyDecoders (0 : Nat) xmlUnmarshalEOF xmlUnmarshalEOF r204
    (by decide) (by decide)
  exact ⟨h.1, h.2⟩

/-- C1 evidence: GET with a body is rejected up front with the invalid
request error, but DELETE with the same options is not rejected — the body
is encoded (with the defaulted JSON content type) and a transport-ready
request is assembled, after which the network exchange would proceed. -/
theorem deleteBodyNotRejected :
    Get csProbe [] [97] bodyOpts =
      .error (.invalidRequest "GET request cannot contain a body") ∧
    Delete csProbe [] [97] bodyOpts =
      .ok ⟨[("content-type", "application/json")], [97],
           some [110, 117, 108, 108]⟩ := by
  constructor <;> decide

/-! Lemmas about content-type normalisation and the encoder. -/

theorem takeWhile_ne_semi_self (s : List Char) (h : ';' ∉ s) :
    s.takeWhile (fun c => c ≠ ';') = s := by
  induction s with
  | nil => rfl
  | cons c cs ih =>
      simp only [List.mem_cons, not_or] at h
      have h1 : c ≠ ';' := fun hc => h.1 hc.symm
      rw [List.takeWhile_cons_of_pos (by simpa using h1), ih h.2]

theorem takeWhile_ne_semi_append (s t : List Char) (h : ';' ∉ s) :
    (s ++ ';' :: t).takeWhile (fun c => c ≠ ';') = s := by
  induction s with
  | nil => rw [List.nil_append, List.takeWhile_cons_of_neg (by simp)]
  | cons c cs ih =>
      simp only [List.mem_cons, not_or] at h
      have h1 : c ≠ ';' := fun hc => h.1 hc.symm
      rw [List.cons_append, List.takeWhile_cons_of_pos (by simpa using h1),
        ih h.2]

/-- C7: body-encoding dispatch.  The encoder dispatches on the Content-Type
after stripping everything from the first `;` on and lowercasing, and any
content type without a dedicated branch falls back to JSON serialisation of
the body. -/
theorem contentTypeDispatch (cs : Codecs) (b : GoValue) :
    (∀ rh, encodeBody cs rh b =
      dispatch cs (normalizeCT (headerGet rh "Content-Type")) rh b) ∧
    (∀ s t : List Char, ';' ∉ s →
      normalizeCT (String.mk (s ++ ';' :: t)) = String.mk (s.map Char.toLower)) ∧
    (∀ s : List Char, ';' ∉ s →
      normalizeCT (String.mk s) = String.mk (s.map Char.toLower)) ∧
    (∀ rh, normalizeCT (headerGet rh "Content-Type") ∉ knownContentTypes →
      encodeBody cs rh b =
        (match cs.jsonMarshal b with
         | .error e => .error (.encoding e)
         | .ok bs => .ok (bs, rh))) := by
  refine ⟨fun rh => rfl, ?_, ?_, ?_⟩
  · intro s t hs
    unfold normalizeCT
    rw [show (String.mk (s ++ ';' :: t)).data = s ++ ';' :: t from rfl]
    rw [takeWhile_ne_semi_append s t hs]
  · intro s hs
    unfold normalizeCT
    rw [show (String.mk s).data = s from rfl]
    rw [takeWhile_ne_semi_self s hs]
  · intro rh hct
    simp only [knownContentTypes, List.mem_cons, List.not_mem_nil, or_false,
      not_or] at hct
    obtain ⟨h1, h2, h3, h4, h5, h6, h7⟩ := hct
    unfold encodeBody dispatch
    simp [h1, h2, h3, h4, h5, h6, h7]

/-- Witness for `contentTypeDispatch`: an unrecognised content type with a
parameter falls back to the JSON marshaller, and normalisation lowercases
and strips the parameter. -/
theorem contentTypeDispatch_witness :
    (encodeBody csProbe [("content-type", "Text/CSV; charset=utf-8")] (.vstr "x") =
      .ok ([110, 117, 108, 108], [("content-type", "Text/CSV; charset=utf-8")])) ∧
    normalizeCT (String.mk ("Text/CSV".data ++ ';' :: " charset=utf-8".data)) =
      String.mk ("Text/CSV".data.map Char.toLower) := by
  constructor
  · exact (contentTypeDispatch csProbe (.vstr "x")).2.2.2
      [("content-type", "Text/CSV; charset=utf-8")] (by decide)
  · exact (contentTypeDispatch csProbe (.vstr "x")).2.1 "Text/CSV".data
      " charset=utf-8".data (by decide)

/-- C8: Content-Type defaulting.  With a body present and no Content-Type in
the resolved headers, the headers handed to the encoder carry
`application/json` (so dispatch sees that concrete value); with no body, the
assembled request has no payload at all (`none`, not an empty payload) and
its headers are the resolved headers, untouched by any defaulting. -/
theorem defaultContentType (cs : Codecs) (ch : List (String × List String))
    (method : String) (uri : ByteList) (o : RequestOptions) :
    (∀ b, o.body = some b →
      headerGet (resolveHeaders ch o.headers) "Content-Type" = "" →
      withDefaultCT (resolveHeaders ch o.headers) o.body.isSome =
        headerSet (resolveHeaders ch o.headers) "Content-Type" "application/json" ∧
      normalizeCT (headerGet (withDefaultCT (resolveHeaders ch o.headers)
        o.body.isSome) "Content-Type") = "application/json") ∧
    (o.body = none → ∀ r, doRequest cs ch method uri o = .ok r →
      r.payload = none ∧ r.headers = resolveHeaders ch o.headers) := by
  constructor
  · intro b hb hget
    have hd : withDefaultCT (resolveHeaders ch o.headers) o.body.isSome =
        headerSet (resolveHeaders ch o.headers) "Content-Type" "application/json" := by
      simp [withDefaultCT, hb, hget]
    refine ⟨hd, ?_⟩
    rw [hd, headerGet_headerSet, if_pos rfl]
    decide
  · intro hb r hr
    simp only [doRequest, hb, Option.isSome_none, Bool.and_false,
      Bool.false_eq_true, if_false, withDefaultCT, Bool.false_and] at hr
    cases hp : o.params with
    | none =>
        simp only [hp] at hr
        split at hr
        · cases hr
          exact ⟨rfl, rfl⟩
        · exact absurd hr (by simp)
    | some ps =>
        simp only [hp] at hr
        cases ha : appendParams uri ps with
        | error e =>
            simp only [ha] at hr
            exact absurd hr (by simp)
        | ok u2 =>
            simp only [ha] at hr
            split at hr
            · cases hr
              exact ⟨rfl, rfl⟩
            · exact absurd hr (by simp)

/-- Witness for `defaultContentType`: with a body and no Content-Type the
encoder sees `application/json`; with no body, the request assembled at a
concrete input has no payload and the untouched resolved headers. -/
theorem defaultContentType_witness :
    (withDefaultCT (resolveHeaders [] bodyOpts.headers) bodyOpts.body.isSome =
      headerSet (resolveHeaders [] bodyOpts.headers) "Content-Type"
        "application/json" ∧
     normalizeCT (headerGet (withDefaultCT (resolveHeaders [] bodyOpts.headers)
       bodyOpts.body.isSome) "Content-Type") = "application/json") ∧
    ((⟨[], [97], none⟩ : AssembledRequest).payload = none ∧
     (⟨[], [97], none⟩ : AssembledRequest).headers =
       resolveHeaders [] (⟨[], none, none⟩ : RequestOptions).headers) := by
  constructor
  · exact (defaultContentType csProbe [] "POST" [97] bodyOpts).1 (.vstr "x")
      rfl (by decide)
  · exact (defaultContentType csProbe [] "POST" [97] ⟨[], none, none⟩).2 rfl
      ⟨[], [97], none⟩ (by decide)

/-- C9: shape mismatches.  A body whose dynamic type does not fit the branch
selected by the resolved content type — a non-mapping for form-urlencoding,
or neither a byte slice nor a reader for octet-stream — makes the whole
pipeline fail with the branch's encoding error, before the request is ever
assembled or handed to the transport. -/
theorem encodingShapeMismatch (cs : Codecs) (ch : List (String × List String))
    (method : String) (uri : ByteList) (o : RequestOptions) (b : GoValue)
    (hb : o.body = some b) (hm : ¬ method = "GET") :
    (normalizeCT (headerGet (withDefaultCT (resolveHeaders ch o.headers) true)
        "Content-Type") = "application/x-www-form-urlencoded" →
      (∀ m, b ≠ .vmapSS m) → (∀ vs, b ≠ .vurlValues vs) →
      doRequest cs ch method uri o = .error (.encoding
        "body must be map[string]string or url.Values for x-www-form-urlencoded")) ∧
    (normalizeCT (headerGet (withDefaultCT (resolveHeaders ch o.headers) true)
        "Content-Type") = "application/octet-stream" →
      (∀ bs, b ≠ .vbytes bs) → (∀ bs, b ≠ .vreader bs) →
      doRequest cs ch method uri o = .error (.encoding
        "octet-stream requires []byte or io.Reader body")) := by
  constructor
  · intro hct h1 h2
    have henc : encodeBody cs (withDefaultCT (resolveHeaders ch o.headers) true) b =
        .error (.encoding
          "body must be map[string]string or url.Values for x-www-form-urlencoded") := by
      unfold encodeBody
      rw [hct]
      cases b with
      | vmapSS m => exact absurd rfl (h1 m)
      | vurlValues vs => exact absurd rfl (h2 vs)
      | vstr s => rfl
      | vbytes bs => rfl
      | vmapAny f => rfl
      | vreader bs => rfl
      | vother n => rfl
    simp only [doRequest, hb, Option.isSome_some, Bool.and_true]
    rw [if_neg (by simp [hm])]
    rw [if_pos hm, henc]
  · intro hct h1 h2
    have henc : encodeBody cs (withDefaultCT (resolveHeaders ch o.headers) true) b =
        .error (.encoding "octet-stream requires []byte or io.Reader body") := by
      unfold encodeBody
      rw [hct]
      cases b with
      | vbytes bs => exact absurd rfl (h1 bs)
      | vreader bs => exact absurd rfl (h2 bs)
      | vstr s => rfl
      | vmapSS m => rfl
      | vurlValues vs => rfl
      | vmapAny f => rfl
      | vother n => rfl
    simp only [doRequest, hb, Option.isSome_some, Bool.and_true]
    rw [if_neg (by simp [hm])]
    rw [if_pos hm, henc]

/-- Witness for `encodingShapeMismatch`: a string body under form-urlencoding
and a map body under octet-stream each abort the pipeline with the branch's
encoding error. -/
theorem encodingShapeMismatch_witness :
    doRequest csProbe [] "POST" [97]
      ⟨[("Content-Type", ["application/x-www-form-urlencoded"])], none,
        some (.vstr "x")⟩ =
      .error (.encoding
        "body must be map[string]string or url.Values for x-www-form-urlencoded") ∧
    doRequest csProbe [] "POST" [97]
      ⟨[("Content-Type", ["application/octet-stream"])], none,
        some (.vmapSS [])⟩ =
      .error (.encoding "octet-stream requires []byte or io.Reader body") := by
  constructor
  · exact (encodingShapeMismatch csProbe [] "POST" [97]
      ⟨[("Content-Type", ["application/x-www-form-urlencoded"])], none,
        some (.vstr "x")⟩ (.vstr "x") rfl (by decide)).1 (by decide)
      (fun m h => by cases h) (fun vs h => by cases h)
  · exact (encodingShapeMismatch csProbe [] "POST" [97]
      ⟨[("Content-Type", ["application/octet-stream"])], none,
        some (.vmapSS [])⟩ (.vmapSS []) rfl (by decide)).2 (by decide)
      (fun bs h => by cases h) (fun bs h => by cases h)

/-! Lemmas about the multipart field loop. -/

theorem multipartParts_ok (fields : List (String × GoValue))
    (h : ∀ kv ∈ fields, (∃ s, kv.2 = .vstr s) ∨ (∃ bs, kv.2 = .vbytes bs)) :
    ∃ parts, multipartParts fields = .ok parts ∧
      parts.length = fields.length ∧
      (∀ kv ∈ fields, (∀ s, kv.2 = .vstr s → Part.field kv.1 s ∈ parts) ∧
        (∀ bs, kv.2 = .vbytes bs → Part.file kv.1 kv.1 bs ∈ parts)) := by
  induction fields with
  | nil => exact ⟨[], rfl, rfl, by simp⟩
  | cons kv rest ih =>
      obtain ⟨k, v⟩ := kv
      obtain ⟨ps, hps, hlen, hmem⟩ := ih (fun kv hkv => h kv (by simp [hkv]))
      rcases h (k, v) (by simp) with ⟨s, hs⟩ | ⟨bs, hbs⟩
      · subst hs
        refine ⟨Part.field k s :: ps, ?_, by simp [hlen], ?_⟩
        · simp [multipartParts, hps]
        · intro kv2 hkv2
          rcases List.mem_cons.mp hkv2 with heq | htail
          · subst heq
            refine ⟨?_, ?_⟩
            · intro s' hs'
              cases hs'
              exact List.mem_cons_self _ _
            · intro bs' hbs'
              cases hbs'
          · exact ⟨fun s' hs' => List.mem_cons_of_mem _
                ((hmem kv2 htail).1 s' hs'),
              fun bs' hbs' => List.mem_cons_of_mem _
                ((hmem kv2 htail).2 bs' hbs')⟩
      · subst hbs
        refine ⟨Part.file k k bs :: ps, ?_, by simp [hlen], ?_⟩
        · simp [multipartParts, hps]
        · intro kv2 hkv2
          rcases List.mem_cons.mp hkv2 with heq | htail
          · subst heq
            refine ⟨?_, ?_⟩
            · intro s' hs'
              cases hs'
            · intro bs' hbs'
              cases hbs'
              exact List.mem_cons_self _ _
          · exact ⟨fun s' hs' => List.mem_cons_of_mem _
                ((hmem kv2 htail).1 s' hs'),
              fun bs' hbs' => List.mem_cons_of_mem _
                ((hmem kv2 htail).2 bs' hbs')⟩

theorem multipartParts_err (fields : List (String × GoValue))
    (kv : String × GoValue) (hmem : kv ∈ fields)
    (h1 : ∀ s, kv.2 ≠ .vstr s) (h2 : ∀ bs, kv.2 ≠ .vbytes bs) :
    ∃ msg, multipartParts fields = .error msg := by
  induction fields with
  | nil => cases hmem
  | cons p rest ih =>
      obtain ⟨k, v⟩ := p
      rcases List.mem_cons.mp hmem with heq | htail
      · subst heq
        cases v with
        | vstr s => exact absurd rfl (h1 s)
        | vbytes bs => exact absurd rfl (h2 bs)
        | vmapSS m => exact ⟨_, rfl⟩
        | vurlValues vs => exact ⟨_, rfl⟩
        | vmapAny f => exact ⟨_, rfl⟩
        | vreader bs => exact ⟨_, rfl⟩
        | vother n => exact ⟨_, rfl⟩
      · obtain ⟨msg, hmsg⟩ := ih htail
        cases v with
        | vstr s => exact ⟨msg, by simp [multipartParts, hmsg]⟩
        | vbytes bs => exact ⟨msg, by simp [multipartParts, hmsg]⟩
        | vmapSS m => exact ⟨_, rfl⟩
        | vurlValues vs => exact ⟨_, rfl⟩
        | vmapAny f => exact ⟨_, rfl⟩
        | vreader bs => exact ⟨_, rfl⟩
        | vother n => exact ⟨_, rfl⟩

/-- C5: multipart encoding.  Under a resolved multipart/form-data content
type, a `map[string]any` body whose values are strings and byte slices
encodes to the multipart serialisation of one form-field part per string
entry and one file part (named and filenamed after its key) per byte-slice
entry, with the resolved Content-Type header rewritten to
`multipart/form-data; boundary=<generated>`; any entry of another type makes
the encoding fail. -/
theorem multipartEncoding (cs : Codecs) (rh : List (String × String))
    (fields : List (String × GoValue))
    (hct : normalizeCT (headerGet rh "Content-Type") = "multipart/form-data") :
    ((∀ kv ∈ fields, (∃ s, kv.2 = .vstr s) ∨ (∃ bs, kv.2 = .vbytes bs)) →
      ∃ parts, multipartParts fields = .ok parts ∧
        encodeBody cs rh (.vmapAny fields) =
          .ok (multipartBytes cs.boundary parts,
            headerSet rh "Content-Type" (formDataContentType cs.boundary)) ∧
        parts.length = fields.length ∧
        (∀ kv ∈ fields, (∀ s, kv.2 = .vstr s → Part.field kv.1 s ∈ parts) ∧
          (∀ bs, kv.2 = .vbytes bs → Part.file kv.1 kv.1 bs ∈ parts)) ∧
        headerGet (headerSet rh "Content-Type" (formDataContentType cs.boundary))
          "Content-Type" = "multipart/form-data; boundary=" ++ cs.boundary) ∧
    (∀ kv ∈ fields, (∀ s, kv.2 ≠ .vstr s) → (∀ bs, kv.2 ≠ .vbytes bs) →
      ∃ msg, encodeBody cs rh (.vmapAny fields) = .error (.encoding msg)) := by
  have hdis : encodeBody cs rh (.vmapAny fields) =
      (match multipartParts fields with
       | .error e => .error (.encoding e)
       | .ok parts => .ok (multipartBytes cs.boundary parts,
           headerSet rh "Content-Type" (formDataContentType cs.boundary))) := by
    unfold encodeBody
    rw [hct]
    rfl
  constructor
  · intro hshape
    obtain ⟨parts, hps, hlen, hmem⟩ := multipartParts_ok fields hshape
    refine ⟨parts, hps, ?_, hlen, hmem, ?_⟩
    · rw [hdis, hps]
    · rw [headerGet_headerSet, if_pos rfl]
      rfl
  · intro kv hkv h1 h2
    obtain ⟨msg, hmsg⟩ := multipartParts_err fields kv hkv h1 h2
    exact ⟨msg, by rw [hdis, hmsg]⟩

/-- Witness for `multipartEncoding`: the spec scenario — a `username` string
field and a 17-byte `avatar` value — produces exactly one form-field part
and one file part and rewrites the Content-Type to carry the generated
boundary; adding an integer-valued field makes the encoding fail. -/
theorem multipartEncoding_witness :
    (∃ parts,
      multipartParts [("username", .vstr "John"),
        ("avatar", .vbytes [0, 1, 2, 3, 4, 5, 6, 7, 8, 9, 10, 11, 12, 13, 14,
          15, 16])] = .ok parts ∧
      encodeBody csProbe [("content-type", "multipart/form-data")]
          (.vmapAny [("username", .vstr "John"),
            ("avatar", .vbytes [0, 1, 2, 3, 4, 5, 6, 7, 8, 9, 10, 11, 12, 13,
              14, 15, 16])]) =
        .ok (multipartBytes csProbe.boundary parts,
          headerSet [("content-type", "multipart/form-data")] "Content-Type"
            (formDataContentType csProbe.boundary)) ∧
      parts.length = 2 ∧
      Part.field "username" "John" ∈ parts ∧
      Part.file "avatar" "avatar"
        [0, 1, 2, 3, 4, 5, 6, 7, 8, 9, 10, 11, 12, 13, 14, 15, 16] ∈ parts ∧
      headerGet (headerSet [("content-type", "multipart/form-data")]
        "Content-Type" (formDataContentType csProbe.boundary)) "Content-Type" =
        "multipart/form-data; boundary=" ++ csProbe.boundary) ∧
    (∃ msg, encodeBody csProbe [("content-type", "multipart/form-data")]
        (.vmapAny [("n", .vother 3)]) = .error (.encoding msg)) := by
  constructor
  · obtain ⟨parts, hps, henc, hlen, hmem, hhdr⟩ :=
      (multipartEncoding csProbe [("content-type", "multipart/form-data")]
        [("username", .vstr "John"),
         ("avatar", .vbytes [0, 1, 2, 3, 4, 5, 6, 7, 8, 9, 10, 11, 12, 13, 14,
           15, 16])] (by decide)).1
        (by
          intro kv hkv
          simp only [List.mem_cons, List.not_mem_nil, or_false] at hkv
          rcases hkv with h | h
          · rw [h]; exact Or.inl ⟨_, rfl⟩
          · rw [h]; exact Or.inr ⟨_, rfl⟩)
    refine ⟨parts, hps, henc, hlen, ?_, ?_, hhdr⟩
    · exact (hmem ("username", .vstr "John") (by simp)).1 _ rfl
    · exact (hmem ("avatar", .vbytes [0, 1, 2, 3, 4, 5, 6, 7, 8, 9, 10, 11, 12,
        13, 14, 15, 16]) (by simp)).2 _ rfl
  · exact (multipartEncoding csProbe [("content-type", "multipart/form-data")]
      [("n", .vother 3)] (by decide)).2 ("n", .vother 3) (by simp)
      (fun s h => by cases h) (fun bs h => by cases h)

/-! Lemmas about query escaping and unescaping. -/

theorem hexVal_hexDigitByte (n : Nat) (h : n < 16) :
    hexVal (hexDigitByte n) = some n := by
  unfold hexVal hexDigitByte
  split_ifs <;> simp_all <;> omega

theorem hexVal_lt (c a : Nat) (h : hexVal c = some a) : a < 16 := by
  unfold hexVal at h
  split_ifs at h <;> simp_all <;> omega

theorem unreserved_ranges (b : Nat) (h : isUnreservedByte b = true) :
    (48 ≤ b ∧ b ≤ 57) ∨ (65 ≤ b ∧ b ≤ 90) ∨ (97 ≤ b ∧ b ≤ 122) ∨
      b = 45 ∨ b = 46 ∨ b = 95 ∨ b = 126 := by
  simp only [isUnreservedByte, Bool.or_eq_true, decide_eq_true_eq,
    Bool.and_eq_true] at h
  rcases h with ((((((⟨a, c⟩ | ⟨a, c⟩) | ⟨a, c⟩) | a) | a) | a) | a) <;> omega

theorem queryUnescape_queryEscape (s : ByteList) (h : ∀ b ∈ s, b < 256) :
    queryUnescape (queryEscape s) = some s := by
  induction s with
  | nil => rfl
  | cons b rest ih =>
      have hb : b < 256 := h b (by simp)
      have hrest := ih (fun x hx => h x (by simp [hx]))
      show queryUnescape (escapeByte b ++ queryEscape rest) = some (b :: rest)
      unfold escapeByte
      by_cases h32 : b = 32
      · subst h32
        rw [if_pos rfl, List.cons_append, List.nil_append]
        unfold queryUnescape
        simp [hrest]
      · rw [if_neg h32]
        by_cases hun : isUnreservedByte b
        · rw [if_pos hun]
          have hranges := unreserved_ranges b hun
          have hb37 : ¬ b = 37 := by
            rcases hranges with h1 | h1 | h1 | h1 | h1 | h1 | h1 <;> omega
          have hb43 : ¬ b = 43 := by
            rcases hranges with h1 | h1 | h1 | h1 | h1 | h1 | h1 <;> omega
          rw [List.cons_append, List.nil_append]
          unfold queryUnescape
          simp [hb37, hb43, hrest]
        · rw [if_neg hun]
          rw [List.cons_append, List.cons_append, List.cons_append,
            List.nil_append]
          unfold queryUnescape
          rw [if_pos rfl]
          simp only [hexVal_hexDigitByte (b / 16) (by omega),
            hexVal_hexDigitByte (b % 16) (by omega), hrest, Option.map_some']
          have hdm : b / 16 * 16 + b % 16 = b := by omega
          rw [hdm]

theorem escapeByte_sep_free (b : Nat) (hb : b < 256) :
    ∀ x ∈ escapeByte b, x < 256 ∧ x ≠ 38 ∧ x ≠ 61 ∧ x ≠ 59 ∧ x ≠ 35 ∧ x ≠ 63 := by
  intro x hx
  unfold escapeByte at hx
  split_ifs at hx with h1 h2
  · simp only [List.mem_singleton] at hx
    omega
  · simp only [List.mem_singleton] at hx
    subst hx
    have := unreserved_ranges x h2
    rcases this with h | h | h | h | h | h | h <;> omega
  · have hd1 : b / 16 < 16 := by omega
    have hd2 : b % 16 < 16 := by omega
    simp only [List.mem_cons, List.not_mem_nil, or_false] at hx
    rcases hx with rfl | rfl | rfl
    · omega
    · unfold hexDigitByte
      split_ifs <;> omega
    · unfold hexDigitByte
      split_ifs <;> omega

theorem queryEscape_sep_free (s : ByteList) (h : ∀ b ∈ s, b < 256) :
    ∀ x ∈ queryEscape s, x < 256 ∧ x ≠ 38 ∧ x ≠ 61 ∧ x ≠ 59 ∧ x ≠ 35 ∧ x ≠ 63 := by
  intro x hx
  unfold queryEscape at hx
  rcases List.mem_flatMap.mp hx with ⟨b, hbmem, hxb⟩
  exact escapeByte_sep_free b (h b hbmem) x hxb

theorem queryUnescape_lt (s : ByteList) :
    ∀ r, (∀ b ∈ s, b < 256) → queryUnescape s = some r → ∀ b ∈ r, b < 256 := by
  induction s using queryUnescape.induct with
  | case1 =>
      intro r _ hq
      cases hq
      simp
  | case2 h l rest2 hv lv hl hh ih =>
      intro r hs hq
      unfold queryUnescape at hq
      rw [if_pos rfl] at hq
      simp only [hh, hl] at hq
      cases hqr : queryUnescape rest2 with
      | none => rw [hqr] at hq; exact Option.noConfusion hq
      | some r2 =>
          rw [hqr] at hq
          simp only [Option.map_some'] at hq
          cases hq
          intro b hbmem
          rcases List.mem_cons.mp hbmem with rfl | hb2
          · have := hexVal_lt h hv hh
            have := hexVal_lt l lv hl
            omega
          · exact ih r2 (fun y hy => hs y (by simp [hy])) hqr b hb2
  | case3 h l rest2 hbad =>
      intro r hs hq
      cases hv1 : hexVal h with
      | none =>
          unfold queryUnescape at hq
          rw [if_pos rfl] at hq
          simp only [hv1] at hq
          exact Option.noConfusion hq
      | some a =>
          cases hv2 : hexVal l with
          | none =>
              unfold queryUnescape at hq
              rw [if_pos rfl] at hq
              simp only [hv1, hv2] at hq
              exact Option.noConfusion hq
          | some c => exact (hbad a c hv1 hv2).elim
  | case4 rest hshape =>
      intro r hs hq
      unfold queryUnescape at hq
      rw [if_pos rfl] at hq
      cases rest with
      | nil => exact Option.noConfusion hq
      | cons x rest1 =>
          cases rest1 with
          | nil => exact Option.noConfusion hq
          | cons y rest2 => exact (hshape x y rest2 rfl).elim
  | case5 rest h37 ih =>
      intro r hs hq
      unfold queryUnescape at hq
      rw [if_neg h37, if_pos rfl] at hq
      cases hqr : queryUnescape rest with
      | none => rw [hqr] at hq; exact Option.noConfusion hq
      | some r2 =>
          rw [hqr] at hq
          simp only [Option.map_some'] at hq
          cases hq
          intro b hbmem
          rcases List.mem_cons.mp hbmem with rfl | hb2
          · omega
          · exact ih r2 (fun y hy => hs y (by simp [hy])) hqr b hb2
  | case6 b0 rest h37 h43 ih =>
      intro r hs hq
      unfold queryUnescape at hq
      rw [if_neg h37, if_neg h43] at hq
      cases hqr : queryUnescape rest with
      | none => rw [hqr] at hq; exact Option.noConfusion hq
      | some r2 =>
          rw [hqr] at hq
          simp only [Option.map_some'] at hq
          cases hq
          intro b hbmem
          rcases List.mem_cons.mp hbmem with rfl | hb2
          · exact hs b (by simp)
          · exact ih r2 (fun y hy => hs y (by simp [hy])) hqr b hb2

/-! Lemmas about splitting, joining and cutting byte strings. -/

theorem splitOnByte_ne_nil (sep : Nat) (s : ByteList) : splitOnByte sep s ≠ [] := by
  cases s with
  | nil => simp [splitOnByte]
  | cons b rest =>
      unfold splitOnByte
      cases h : splitOnByte sep rest with
      | nil => simp
      | cons cur acc => by_cases hb : b = sep <;> simp [hb]

theorem splitOnByte_cons_eq (sep b : Nat) (rest : ByteList) :
    splitOnByte sep (b :: rest) =
      if b = sep then [] :: splitOnByte sep rest
      else (b :: (splitOnByte sep rest).headD []) :: (splitOnByte sep rest).tail := by
  rw [splitOnByte]
  cases h : splitOnByte sep rest with
  | nil => exact absurd h (splitOnByte_ne_nil sep rest)
  | cons cur acc => by_cases hb : b = sep <;> simp [hb]

theorem splitOnByte_single (sep : Nat) (s : ByteList) (h : sep ∉ s) :
    splitOnByte sep s = [s] := by
  induction s with
  | nil => rfl
  | cons b rest ih =>
      simp only [List.mem_cons, not_or] at h
      rw [splitOnByte_cons_eq, if_neg (fun hb => h.1 hb.symm), ih h.2]
      simp

theorem splitOnByte_append (sep : Nat) (a s : ByteList) (ha : sep ∉ a) :
    splitOnByte sep (a ++ s) =
      (a ++ (splitOnByte sep s).headD []) :: (splitOnByte sep s).tail := by
  induction a with
  | nil =>
      simp only [List.nil_append]
      cases h : splitOnByte sep s with
      | nil => exact absurd h (splitOnByte_ne_nil sep s)
      | cons cur acc => simp
  | cons b a2 ih =>
      simp only [List.mem_cons, not_or] at ha
      rw [List.cons_append, splitOnByte_cons_eq,
        if_neg (fun hb => ha.1 hb.symm), ih ha.2]
      simp

theorem splitOnByte_sep_cons (sep : Nat) (s : ByteList) :
    splitOnByte sep (sep :: s) = [] :: splitOnByte sep s := by
  rw [splitOnByte_cons_eq, if_pos rfl]

theorem splitOnByte_joinSep (sep : Nat) (comps : List ByteList)
    (hne : comps ≠ []) (hsep : ∀ c ∈ comps, sep ∉ c) :
    splitOnByte sep (joinSep sep comps) = comps := by
  induction comps with
  | nil => exact absurd rfl hne
  | cons c cs ih =>
      cases cs with
      | nil =>
          show splitOnByte sep c = [c]
          exact splitOnByte_single sep c (hsep c (by simp))
      | cons c2 cs2 =>
          show splitOnByte sep (c ++ sep :: joinSep sep (c2 :: cs2)) = c :: c2 :: cs2
          rw [splitOnByte_append sep c _ (hsep c (by simp)),
            splitOnByte_sep_cons,
            ih (by simp) (fun x hx => hsep x (by simp [hx]))]
          simp

theorem splitOnByte_subset (sep : Nat) (s : ByteList) :
    ∀ c ∈ splitOnByte sep s, ∀ x ∈ c, x ∈ s := by
  induction s with
  | nil =>
      intro c hc x hx
      simp [splitOnByte] at hc
      subst hc
      cases hx
  | cons b rest ih =>
      intro c hc x hx
      rw [splitOnByte_cons_eq] at hc
      by_cases hb : b = sep
      · rw [if_pos hb] at hc
        rcases List.mem_cons.mp hc with rfl | hc2
        · cases hx
        · exact List.mem_cons_of_mem _ (ih c hc2 x hx)
      · rw [if_neg hb] at hc
        rcases List.mem_cons.mp hc with rfl | hc2
        · rcases List.mem_cons.mp hx with rfl | hx2
          · exact List.mem_cons_self _ _
          · cases hsp : splitOnByte sep rest with
            | nil => exact absurd hsp (splitOnByte_ne_nil sep rest)
            | cons cur acc =>
                rw [hsp] at hx2
                exact List.mem_cons_of_mem _
                  (ih cur (by rw [hsp]; exact List.mem_cons_self _ _) x
                    (by simpa using hx2))
        · cases hsp : splitOnByte sep rest with
          | nil => exact absurd hsp (splitOnByte_ne_nil sep rest)
          | cons cur acc =>
              rw [hsp] at hc2
              exact List.mem_cons_of_mem _
                (ih c (by rw [hsp]; exact List.mem_cons_of_mem _ hc2) x hx)

theorem cutByte_not_mem (sep : Nat) (s : ByteList) (h : sep ∉ s) :
    cutByte sep s = (s, []) := by
  induction s with
  | nil => rfl
  | cons b rest ih =>
      simp only [List.mem_cons, not_or] at h
      unfold cutByte
      rw [if_neg (fun hb => h.1 hb.symm), ih h.2]

theorem cutByte_append (sep : Nat) (a s : ByteList) (ha : sep ∉ a) :
    cutByte sep (a ++ s) = (a ++ (cutByte sep s).1, (cutByte sep s).2) := by
  induction a with
  | nil => simp
  | cons b a2 ih =>
      simp only [List.mem_cons, not_or] at ha
      rw [List.cons_append, cutByte, if_neg (fun hb => ha.1 hb.symm), ih ha.2]
      simp

theorem cutByte_sep (sep : Nat) (a s : ByteList) (ha : sep ∉ a) :
    cutByte sep (a ++ sep :: s) = (a, s) := by
  rw [cutByte_append sep a _ ha, cutByte, if_pos rfl]
  simp

theorem cutByte_fst_not_mem (sep : Nat) (s : ByteList) :
    sep ∉ (cutByte sep s).1 := by
  induction s with
  | nil => simp [cutByte]
  | cons b rest ih =>
      unfold cutByte
      by_cases hb : b = sep
      · simp [hb]
      · simp only [if_neg hb]
        intro hmem
        rcases List.mem_cons.mp hmem with heq | hmem2
        · exact hb heq.symm
        · exact ih hmem2

theorem cutByte_subset (sep : Nat) (s : ByteList) :
    (∀ x ∈ (cutByte sep s).1, x ∈ s) ∧ (∀ x ∈ (cutByte sep s).2, x ∈ s) := by
  induction s with
  | nil => simp [cutByte]
  | cons b rest ih =>
      unfold cutByte
      by_cases hb : b = sep
      · rw [if_pos hb]
        exact ⟨by simp, fun x hx => List.mem_cons_of_mem _ hx⟩
      · rw [if_neg hb]
        constructor
        · intro x hx
          rcases List.mem_cons.mp hx with rfl | hx2
          · exact List.mem_cons_self _ _
          · exact List.mem_cons_of_mem _ (ih.1 x hx2)
        · intro x hx
          exact List.mem_cons_of_mem _ (ih.2 x hx)

/-! Lemmas about the Values model and its sorting. -/

theorem valuesGet?_eq_none (m : Values) (k : ByteList) (h : k ∉ valuesKeys m) :
    valuesGet? m k = none := by
  induction m with
  | nil => rfl
  | cons p rest ih =>
      obtain ⟨k0, l⟩ := p
      simp only [valuesKeys, List.map_cons, List.mem_cons, not_or] at h
      unfold valuesGet?
      rw [if_neg (fun he => h.1 he.symm)]
      exact ih (by simpa [valuesKeys] using h.2)

theorem valuesKeys_cons (k0 : ByteList) (l : List ByteList) (rest : Values) :
    valuesKeys ((k0, l) :: rest) = k0 :: valuesKeys rest := rfl

theorem valuesGet?_valuesSet (m : Values) (k v k2 : ByteList) :
    valuesGet? (valuesSet m k v) k2 =
      if k2 = k then some [v] else valuesGet? m k2 := by
  induction m with
  | nil =>
      rw [valuesSet]
      show (if k = k2 then some [v] else valuesGet? [] k2) =
        if k2 = k then some [v] else valuesGet? [] k2
      by_cases h : k2 = k
      · rw [if_pos h.symm, if_pos h]
      · rw [if_neg (fun he => h he.symm), if_neg h]
  | cons p rest ih =>
      obtain ⟨k0, l⟩ := p
      rw [valuesSet]
      by_cases h0 : k0 = k
      · rw [if_pos h0, valuesGet?, valuesGet?]
        by_cases h2 : k0 = k2
        · have hk : k2 = k := by rw [← h2, h0]
          rw [if_pos h2, if_pos hk]
        · have hk : ¬ k2 = k := fun he => h2 (by rw [h0, ← he])
          rw [if_neg h2, if_neg hk, if_neg h2]
      · rw [if_neg h0, valuesGet?, ih, valuesGet?]
        by_cases h2 : k0 = k2
        · have hk : ¬ k2 = k := fun he => h0 (by rw [h2, he])
          rw [if_pos h2, if_neg hk, if_pos h2]
        · rw [if_neg h2, if_neg h2]

theorem valuesKeys_valuesSet (m : Values) (k v : ByteList) :
    valuesKeys (valuesSet m k v) =
      if k ∈ valuesKeys m then valuesKeys m else valuesKeys m ++ [k] := by
  induction m with
  | nil => simp [valuesSet, valuesKeys]
  | cons p rest ih =>
      obtain ⟨k0, l⟩ := p
      rw [valuesSet]
      by_cases h0 : k0 = k
      · rw [if_pos h0]
        subst h0
        have h1 : k0 ∈ valuesKeys ((k0, l) :: rest) := by
          rw [valuesKeys_cons]
          exact List.mem_cons_self _ _
        rw [if_pos h1, valuesKeys_cons, valuesKeys_cons]
      · rw [if_neg h0]
        by_cases hm : k ∈ valuesKeys rest
        · have h1 : k ∈ valuesKeys ((k0, l) :: rest) := by
            rw [valuesKeys_cons]
            exact List.mem_cons_of_mem _ hm
          rw [if_pos h1, valuesKeys_cons, valuesKeys_cons, ih, if_pos hm]
        · have h1 : k ∉ valuesKeys ((k0, l) :: rest) := by
            rw [valuesKeys_cons, List.mem_cons, not_or]
            exact ⟨fun he => h0 he.symm, hm⟩
          rw [if_neg h1, valuesKeys_cons, valuesKeys_cons, ih, if_neg hm]
          rfl

theorem valuesSet_mem (m : Values) (k v : ByteList) :
    ∀ kv ∈ valuesSet m k v, kv ∈ m ∨ kv = (k, [v]) := by
  induction m with
  | nil =>
      intro kv hkv
      rw [valuesSet] at hkv
      simp only [List.mem_singleton] at hkv
      exact Or.inr hkv
  | cons p rest ih =>
      obtain ⟨k0, l⟩ := p
      intro kv hkv
      rw [valuesSet] at hkv
      by_cases h0 : k0 = k
      · rw [if_pos h0] at hkv
        rcases List.mem_cons.mp hkv with heq | h2
        · exact Or.inr (by rw [heq, h0])
        · exact Or.inl (List.mem_cons_of_mem _ h2)
      · rw [if_neg h0] at hkv
        rcases List.mem_cons.mp hkv with heq | h2
        · exact Or.inl (by rw [heq]; exact List.mem_cons_self _ _)
        · rcases ih kv h2 with h3 | h3
          · exact Or.inl (List.mem_cons_of_mem _ h3)
          · exact Or.inr h3

theorem valuesKeys_valuesAdd (m : Values) (k v : ByteList) :
    valuesKeys (valuesAdd m k v) =
      if k ∈ valuesKeys m then valuesKeys m else valuesKeys m ++ [k] := by
  induction m with
  | nil => simp [valuesAdd, valuesKeys]
  | cons p rest ih =>
      obtain ⟨k0, l⟩ := p
      rw [valuesAdd]
      by_cases h0 : k0 = k
      · rw [if_pos h0]
        subst h0
        have h1 : k0 ∈ valuesKeys ((k0, l) :: rest) := by
          rw [valuesKeys_cons]
          exact List.mem_cons_self _ _
        rw [if_pos h1, valuesKeys_cons, valuesKeys_cons]
      · rw [if_neg h0]
        by_cases hm : k ∈ valuesKeys rest
        · have h1 : k ∈ valuesKeys ((k0, l) :: rest) := by
            rw [valuesKeys_cons]
            exact List.mem_cons_of_mem _ hm
          rw [if_pos h1, valuesKeys_cons, valuesKeys_cons, ih, if_pos hm]
        · have h1 : k ∉ valuesKeys ((k0, l) :: rest) := by
            rw [valuesKeys_cons, List.mem_cons, not_or]
            exact ⟨fun he => h0 he.symm, hm⟩
          rw [if_neg h1, valuesKeys_cons, valuesKeys_cons, ih, if_neg hm]
          rfl

theorem valuesAdd_mem (m : Values) (k v : ByteList) :
    ∀ kv ∈ valuesAdd m k v, kv ∈ m ∨ (∃ l, (kv.1, l) ∈ m ∧ kv.2 = l ++ [v]) ∨
      kv = (k, [v]) := by
  induction m with
  | nil =>
      intro kv hkv
      rw [valuesAdd] at hkv
      simp only [List.mem_singleton] at hkv
      exact Or.inr (Or.inr hkv)
  | cons p rest ih =>
      obtain ⟨k0, l0⟩ := p
      intro kv hkv
      rw [valuesAdd] at hkv
      by_cases h0 : k0 = k
      · rw [if_pos h0] at hkv
        rcases List.mem_cons.mp hkv with heq | h2
        · exact Or.inr (Or.inl ⟨l0, by rw [heq]; exact List.mem_cons_self _ _,
            by rw [heq]⟩)
        · exact Or.inl (List.mem_cons_of_mem _ h2)
      · rw [if_neg h0] at hkv
        rcases List.mem_cons.mp hkv with heq | h2
        · exact Or.inl (by rw [heq]; exact List.mem_cons_self _ _)
        · rcases ih kv h2 with h3 | ⟨l2, h3, h4⟩ | h3
          · exact Or.inl (List.mem_cons_of_mem _ h3)
          · exact Or.inr (Or.inl ⟨l2, List.mem_cons_of_mem _ h3, h4⟩)
          · exact Or.inr (Or.inr h3)

theorem valuesAdd_fresh (m : Values) (k v : ByteList) (h : k ∉ valuesKeys m) :
    valuesAdd m k v = m ++ [(k, [v])] := by
  induction m with
  | nil => rfl
  | cons p rest ih =>
      obtain ⟨k0, l0⟩ := p
      simp only [valuesKeys, List.map_cons, List.mem_cons, not_or] at h
      unfold valuesAdd
      rw [if_neg (fun he => h.1 he.symm), ih (by simpa [valuesKeys] using h.2)]
      rfl

theorem valuesAdd_last (m : Values) (k : ByteList) (acc : List ByteList)
    (v : ByteList) (h : k ∉ valuesKeys m) :
    valuesAdd (m ++ [(k, acc)]) k v = m ++ [(k, acc ++ [v])] := by
  induction m with
  | nil => simp [valuesAdd]
  | cons p rest ih =>
      obtain ⟨k0, l0⟩ := p
      simp only [valuesKeys, List.map_cons, List.mem_cons, not_or] at h
      rw [List.cons_append]
      unfold valuesAdd
      rw [if_neg (fun he => h.1 he.symm), ih (by simpa [valuesKeys] using h.2)]
      rfl

theorem insertSorted_perm (x : ByteList × List ByteList) (l : Values) :
    List.Perm (insertSorted x l) (x :: l) := by
  induction l with
  | nil => exact List.Perm.refl _
  | cons y ys ih =>
      unfold insertSorted
      by_cases hle : lexLe x.1 y.1
      · rw [if_pos hle]
      · rw [if_neg hle]
        exact (ih.cons y).trans (List.Perm.swap x y ys)

theorem sortByKey_perm (l : Values) : List.Perm (sortByKey l) l := by
  induction l with
  | nil => exact List.Perm.refl _
  | cons x xs ih =>
      show List.Perm (insertSorted x (sortByKey xs)) (x :: xs)
      exact (insertSorted_perm x (sortByKey xs)).trans (ih.cons x)

theorem valuesKeys_sortByKey_perm (l : Values) :
    List.Perm (valuesKeys (sortByKey l)) (valuesKeys l) :=
  (sortByKey_perm l).map Prod.fst

theorem valuesGet?_insertSorted_ne (x : ByteList × List ByteList) (l : Values)
    (k : ByteList) (h : ¬ x.1 = k) :
    valuesGet? (insertSorted x l) k = valuesGet? l k := by
  induction l with
  | nil => simp [insertSorted, valuesGet?, h]
  | cons y ys ih =>
      obtain ⟨k0, l0⟩ := y
      unfold insertSorted
      by_cases hle : lexLe x.1 k0
      · rw [if_pos hle]
        show (if x.1 = k then some x.2 else valuesGet? ((k0, l0) :: ys) k) = _
        rw [if_neg h]
      · rw [if_neg hle]
        show (if k0 = k then some l0 else valuesGet? (insertSorted x ys) k) =
          (if k0 = k then some l0 else valuesGet? ys k)
        by_cases h0 : k0 = k
        · rw [if_pos h0, if_pos h0]
        · rw [if_neg h0, if_neg h0, ih]

theorem valuesGet?_insertSorted_eq (x : ByteList × List ByteList) (l : Values)
    (h : x.1 ∉ valuesKeys l) :
    valuesGet? (insertSorted x l) x.1 = some x.2 := by
  induction l with
  | nil => simp [insertSorted, valuesGet?]
  | cons y ys ih =>
      obtain ⟨k0, l0⟩ := y
      simp only [valuesKeys, List.map_cons, List.mem_cons, not_or] at h
      unfold insertSorted
      by_cases hle : lexLe x.1 k0
      · rw [if_pos hle]
        show (if x.1 = x.1 then some x.2 else _) = some x.2
        rw [if_pos rfl]
      · rw [if_neg hle]
        show (if k0 = x.1 then some l0 else valuesGet? (insertSorted x ys) x.1) =
          some x.2
        rw [if_neg (fun he => h.1 he.symm), ih (by simpa [valuesKeys] using h.2)]

theorem valuesGet?_sortByKey (Q : Values) (k : ByteList)
    (hnd : (valuesKeys Q).Nodup) :
    valuesGet? (sortByKey Q) k = valuesGet? Q k := by
  induction Q with
  | nil => rfl
  | cons x xs ih =>
      simp only [valuesKeys, List.map_cons, List.nodup_cons] at hnd
      show valuesGet? (insertSorted x (sortByKey xs)) k = _
      by_cases hk : x.1 = k
      · subst hk
        have hnotin : x.1 ∉ valuesKeys (sortByKey xs) := fun hc =>
          hnd.1 ((valuesKeys_sortByKey_perm xs).mem_iff.mp hc)
        rw [valuesGet?_insertSorted_eq x (sortByKey xs) hnotin]
        obtain ⟨k0, l0⟩ := x
        simp [valuesGet?]
      · rw [valuesGet?_insertSorted_ne x (sortByKey xs) k hk,
          ih (by simpa [valuesKeys] using hnd.2)]
        obtain ⟨k0, l0⟩ := x
        simp only [valuesGet?]
        rw [if_neg hk]

/-! parseQuery invariants and the encode-parse roundtrip. -/

theorem parseQueryStep_props (m : Values) (c : ByteList)
    (hc : ∀ x ∈ c, x < 256)
    (h1 : (valuesKeys m).Nodup) (h2 : ∀ kv ∈ m, kv.2 ≠ [])
    (h3 : ∀ kv ∈ m, (∀ x ∈ kv.1, x < 256) ∧ ∀ v ∈ kv.2, ∀ x ∈ v, x < 256) :
    (valuesKeys (parseQueryStep m c)).Nodup ∧
    (∀ kv ∈ parseQueryStep m c, kv.2 ≠ []) ∧
    (∀ kv ∈ parseQueryStep m c, (∀ x ∈ kv.1, x < 256) ∧
      ∀ v ∈ kv.2, ∀ x ∈ v, x < 256) := by
  unfold parseQueryStep
  split_ifs with hA hB
  · exact ⟨h1, h2, h3⟩
  · exact ⟨h1, h2, h3⟩
  · cases hqk : queryUnescape (cutByte 61 c).1 with
    | none =>
        simp only [hqk]
        exact ⟨h1, h2, h3⟩
    | some k =>
        cases hqv : queryUnescape (cutByte 61 c).2 with
        | none =>
            simp only [hqk, hqv]
            exact ⟨h1, h2, h3⟩
        | some v =>
            simp only [hqk, hqv]
            have hk256 : ∀ x ∈ k, x < 256 :=
              queryUnescape_lt _ k
                (fun x hx => hc x ((cutByte_subset 61 c).1 x hx)) hqk
            have hv256 : ∀ x ∈ v, x < 256 :=
              queryUnescape_lt _ v
                (fun x hx => hc x ((cutByte_subset 61 c).2 x hx)) hqv
            refine ⟨?_, ?_, ?_⟩
            · rw [valuesKeys_valuesAdd]
              split_ifs with hm
              · exact h1
              · refine List.Nodup.append h1 (List.nodup_singleton k) ?_
                intro a ha hb
                rw [List.mem_singleton] at hb
                subst hb
                exact hm ha
            · intro kv hkv
              rcases valuesAdd_mem m k v kv hkv with hmem | ⟨l2, hmem, hl2⟩ | heq
              · exact h2 kv hmem
              · rw [hl2]
                simp
              · rw [heq]
                simp
            · intro kv hkv
              rcases valuesAdd_mem m k v kv hkv with hmem | ⟨l2, hmem, hl2⟩ | heq
              · exact h3 kv hmem
              · refine ⟨(h3 (kv.1, l2) hmem).1, ?_⟩
                intro v2 hv2
                rw [hl2] at hv2
                rcases List.mem_append.mp hv2 with h4 | h4
                · exact (h3 (kv.1, l2) hmem).2 v2 h4
                · rw [List.mem_singleton] at h4
                  subst h4
                  exact hv256
              · rw [heq]
                refine ⟨hk256, ?_⟩
                intro v2 hv2
                rw [List.mem_singleton] at hv2
                subst hv2
                exact hv256

theorem foldl_parseQueryStep_props (comps : List ByteList) (m : Values)
    (hcomp : ∀ c ∈ comps, ∀ x ∈ c, x < 256)
    (h1 : (valuesKeys m).Nodup) (h2 : ∀ kv ∈ m, kv.2 ≠ [])
    (h3 : ∀ kv ∈ m, (∀ x ∈ kv.1, x < 256) ∧ ∀ v ∈ kv.2, ∀ x ∈ v, x < 256) :
    (valuesKeys (comps.foldl parseQueryStep m)).Nodup ∧
    (∀ kv ∈ comps.foldl parseQueryStep m, kv.2 ≠ []) ∧
    (∀ kv ∈ comps.foldl parseQueryStep m, (∀ x ∈ kv.1, x < 256) ∧
      ∀ v ∈ kv.2, ∀ x ∈ v, x < 256) := by
  induction comps generalizing m with
  | nil => exact ⟨h1, h2, h3⟩
  | cons c cs ih =>
      obtain ⟨g1, g2, g3⟩ := parseQueryStep_props m c (hcomp c (by simp)) h1 h2 h3
      exact ih (parseQueryStep m c) (fun c2 hc2 => hcomp c2 (by simp [hc2]))
        g1 g2 g3

theorem parseQuery_props (raw : ByteList) (hraw : ∀ b ∈ raw, b < 256) :
    (valuesKeys (parseQuery raw)).Nodup ∧
    (∀ kv ∈ parseQuery raw, kv.2 ≠ []) ∧
    (∀ kv ∈ parseQuery raw, (∀ x ∈ kv.1, x < 256) ∧
      ∀ v ∈ kv.2, ∀ x ∈ v, x < 256) := by
  unfold parseQuery
  exact foldl_parseQueryStep_props _ []
    (fun c hc x hx => hraw x (splitOnByte_subset 38 raw c hc x hx))
    (by simp [valuesKeys]) (by simp) (by simp)

theorem parseQueryStep_enc (m : Values) (k v : ByteList)
    (hk : ∀ x ∈ k, x < 256) (hv : ∀ x ∈ v, x < 256) :
    parseQueryStep m (queryEscape k ++ 61 :: queryEscape v) = valuesAdd m k v := by
  have hne : ¬ queryEscape k ++ 61 :: queryEscape v = [] := by simp
  have h59 : ¬ (59 : Nat) ∈ queryEscape k ++ 61 :: queryEscape v := by
    intro hmem
    rcases List.mem_append.mp hmem with h4 | h4
    · exact (queryEscape_sep_free k hk 59 h4).2.2.2.1 rfl
    · rcases List.mem_cons.mp h4 with h5 | h5
      · exact absurd h5 (by decide)
      · exact (queryEscape_sep_free v hv 59 h5).2.2.2.1 rfl
  have hcut : cutByte 61 (queryEscape k ++ 61 :: queryEscape v) =
      (queryEscape k, queryEscape v) :=
    cutByte_sep 61 _ _ (fun hmem => (queryEscape_sep_free k hk 61 hmem).2.2.1 rfl)
  unfold parseQueryStep
  rw [if_neg hne, if_neg h59, hcut]
  simp only [queryUnescape_queryEscape k hk, queryUnescape_queryEscape v hv]

theorem foldl_enc_acc (k : ByteList) (vs : List ByteList) (m : Values)
    (acc : List ByteList) (hfresh : k ∉ valuesKeys m)
    (hk : ∀ x ∈ k, x < 256) (hvs : ∀ v ∈ vs, ∀ x ∈ v, x < 256) :
    (vs.map (fun v => queryEscape k ++ 61 :: queryEscape v)).foldl parseQueryStep
      (m ++ [(k, acc)]) = m ++ [(k, acc ++ vs)] := by
  induction vs generalizing acc with
  | nil => simp
  | cons v vs2 ih =>
      show (vs2.map (fun v => queryEscape k ++ 61 :: queryEscape v)).foldl
        parseQueryStep
        (parseQueryStep (m ++ [(k, acc)]) (queryEscape k ++ 61 :: queryEscape v)) = _
      rw [parseQueryStep_enc _ _ _ hk (hvs v (by simp)),
        valuesAdd_last m k acc v hfresh,
        ih (acc ++ [v]) (fun v2 h2 => hvs v2 (by simp [h2]))]
      simp

theorem foldl_enc_group (k : ByteList) (l : List ByteList) (m : Values)
    (hfresh : k ∉ valuesKeys m) (hk : ∀ x ∈ k, x < 256)
    (hl : ∀ v ∈ l, ∀ x ∈ v, x < 256) (hlne : l ≠ []) :
    (l.map (fun v => queryEscape k ++ 61 :: queryEscape v)).foldl
      parseQueryStep m = m ++ [(k, l)] := by
  cases l with
  | nil => exact absurd rfl hlne
  | cons v vs =>
      show (vs.map (fun v => queryEscape k ++ 61 :: queryEscape v)).foldl
        parseQueryStep (parseQueryStep m (queryEscape k ++ 61 :: queryEscape v)) = _
      rw [parseQueryStep_enc m k v hk (hl v (by simp)),
        valuesAdd_fresh m k v hfresh,
        foldl_enc_acc k vs m [v] hfresh hk (fun v2 h2 => hl v2 (by simp [h2]))]
      simp

theorem parse_encode_chunks (L : Values) (m : Values)
    (hdisj : ∀ kv ∈ L, kv.1 ∉ valuesKeys m)
    (hLnd : (valuesKeys L).Nodup)
    (hLne : ∀ kv ∈ L, kv.2 ≠ [])
    (hLlt : ∀ kv ∈ L, (∀ x ∈ kv.1, x < 256) ∧ ∀ v ∈ kv.2, ∀ x ∈ v, x < 256) :
    (L.flatMap (fun p => p.2.map
      (fun v => queryEscape p.1 ++ 61 :: queryEscape v))).foldl
      parseQueryStep m = m ++ L := by
  induction L generalizing m with
  | nil => simp
  | cons p rest ih =>
      obtain ⟨k, l⟩ := p
      rw [List.flatMap_cons, List.foldl_append]
      rw [foldl_enc_group k l m (hdisj (k, l) (by simp))
        ((hLlt (k, l) (by simp)).1) ((hLlt (k, l) (by simp)).2)
        (hLne (k, l) (by simp))]
      rw [valuesKeys_cons, List.nodup_cons] at hLnd
      rw [ih (m ++ [(k, l)]) ?_ hLnd.2 (fun kv hkv => hLne kv (by simp [hkv]))
        (fun kv hkv => hLlt kv (by simp [hkv]))]
      · simp
      · intro kv hkv
        rw [valuesKeys, List.map_append]
        intro hmem
        rcases List.mem_append.mp hmem with h4 | h4
        · exact hdisj kv (by simp [hkv]) h4
        · simp only [List.map_cons, List.map_nil, List.mem_singleton] at h4
          exact hLnd.1 (h4 ▸ List.mem_map.mpr ⟨kv, hkv, rfl⟩)

theorem parseQuery_valuesEncode (Q : Values)
    (hnd : (valuesKeys Q).Nodup) (hne : ∀ kv ∈ Q, kv.2 ≠ [])
    (hlt : ∀ kv ∈ Q, (∀ x ∈ kv.1, x < 256) ∧ ∀ v ∈ kv.2, ∀ x ∈ v, x < 256) :
    parseQuery (valuesEncode Q) = sortByKey Q := by
  have hS := sortByKey_perm Q
  have hSnd : (valuesKeys (sortByKey Q)).Nodup :=
    ((valuesKeys_sortByKey_perm Q).nodup_iff).mpr hnd
  have hSne : ∀ kv ∈ sortByKey Q, kv.2 ≠ [] :=
    fun kv hkv => hne kv (hS.mem_iff.mp hkv)
  have hSlt : ∀ kv ∈ sortByKey Q, (∀ x ∈ kv.1, x < 256) ∧
      ∀ v ∈ kv.2, ∀ x ∈ v, x < 256 :=
    fun kv hkv => hlt kv (hS.mem_iff.mp hkv)
  unfold valuesEncode parseQuery
  cases hS0 : sortByKey Q with
  | nil => rfl
  | cons p rest =>
      rw [hS0] at hSnd hSne hSlt
      have hcne : (p :: rest).flatMap (fun q => q.2.map
          (fun v => queryEscape q.1 ++ 61 :: queryEscape v)) ≠ [] := by
        obtain ⟨k, l⟩ := p
        have hlne : l ≠ [] := hSne (k, l) (by simp)
        cases l with
        | nil => exact absurd rfl hlne
        | cons v vs => simp [List.flatMap_cons]
      have hcsep : ∀ c ∈ (p :: rest).flatMap (fun q => q.2.map
          (fun v => queryEscape q.1 ++ 61 :: queryEscape v)), (38 : Nat) ∉ c := by
        intro c hc
        rcases List.mem_flatMap.mp hc with ⟨q, hq, hcq⟩
        rcases List.mem_map.mp hcq with ⟨v, hv, rfl⟩
        intro hmem
        rcases List.mem_append.mp hmem with h4 | h4
        · exact (queryEscape_sep_free q.1 ((hSlt q hq).1) 38 h4).2.1 rfl
        · rcases List.mem_cons.mp h4 with h5 | h5
          · exact absurd h5 (by decide)
          · exact (queryEscape_sep_free v ((hSlt q hq).2 v hv) 38 h5).2.1 rfl
      rw [splitOnByte_joinSep 38 _ hcne hcsep]
      have hmain := parse_encode_chunks (p :: rest) []
        (by simp [valuesKeys]) hSnd hSne hSlt
      simpa using hmain

/-! Folding Values.Set over caller parameters. -/

theorem valuesGet?_foldl_valuesSet_not_mem (params : List (ByteList × ByteList))
    (q : Values) (k : ByteList) (h : ∀ kv ∈ params, kv.1 ≠ k) :
    valuesGet? (params.foldl (fun acc kv => valuesSet acc kv.1 kv.2) q) k =
      valuesGet? q k := by
  induction params generalizing q with
  | nil => rfl
  | cons p rest ih =>
      show valuesGet? (rest.foldl (fun acc kv => valuesSet acc kv.1 kv.2)
        (valuesSet q p.1 p.2)) k = _
      rw [ih (valuesSet q p.1 p.2) (fun kv hkv => h kv (by simp [hkv])),
        valuesGet?_valuesSet,
        if_neg (fun he => h p (List.mem_cons_self _ _) he.symm)]

theorem valuesGet?_foldl_valuesSet_mem (params : List (ByteList × ByteList))
    (q : Values) (k v : ByteList) (hmem : (k, v) ∈ params)
    (hnd : (params.map Prod.fst).Nodup) :
    valuesGet? (params.foldl (fun acc kv => valuesSet acc kv.1 kv.2) q) k =
      some [v] := by
  induction params generalizing q with
  | nil => cases hmem
  | cons p rest ih =>
      rw [List.map_cons, List.nodup_cons] at hnd
      show valuesGet? (rest.foldl (fun acc kv => valuesSet acc kv.1 kv.2)
        (valuesSet q p.1 p.2)) k = _
      rcases List.mem_cons.mp hmem with heq | htail
      · have hp1 : p.1 = k := by rw [← heq]
        rw [valuesGet?_foldl_valuesSet_not_mem rest _ k ?_]
        · rw [← heq, valuesGet?_valuesSet, if_pos rfl]
        · intro kv hkv he
          exact hnd.1 (hp1 ▸ (he ▸ List.mem_map.mpr ⟨kv, hkv, rfl⟩))
      · exact ih (valuesSet q p.1 p.2) htail hnd.2

theorem valuesSet_props (m : Values) (k v : ByteList)
    (hk : ∀ x ∈ k, x < 256) (hv : ∀ x ∈ v, x < 256)
    (h1 : (valuesKeys m).Nodup) (h2 : ∀ kv ∈ m, kv.2 ≠ [])
    (h3 : ∀ kv ∈ m, (∀ x ∈ kv.1, x < 256) ∧ ∀ v2 ∈ kv.2, ∀ x ∈ v2, x < 256) :
    (valuesKeys (valuesSet m k v)).Nodup ∧
    (∀ kv ∈ valuesSet m k v, kv.2 ≠ []) ∧
    (∀ kv ∈ valuesSet m k v, (∀ x ∈ kv.1, x < 256) ∧
      ∀ v2 ∈ kv.2, ∀ x ∈ v2, x < 256) := by
  refine ⟨?_, ?_, ?_⟩
  · rw [valuesKeys_valuesSet]
    split_ifs with hm
    · exact h1
    · refine List.Nodup.append h1 (List.nodup_singleton k) ?_
      intro a ha hb
      rw [List.mem_singleton] at hb
      subst hb
      exact hm ha
  · intro kv hkv
    rcases valuesSet_mem m k v kv hkv with hmem | heq
    · exact h2 kv hmem
    · rw [heq]
      simp
  · intro kv hkv
    rcases valuesSet_mem m k v kv hkv with hmem | heq
    · exact h3 kv hmem
    · rw [heq]
      refine ⟨hk, ?_⟩
      intro v2 hv2
      rw [List.mem_singleton] at hv2
      subst hv2
      exact hv

theorem foldl_valuesSet_props (params : List (ByteList × ByteList)) (q : Values)
    (hp : ∀ kv ∈ params, (∀ b ∈ kv.1, b < 256) ∧ (∀ b ∈ kv.2, b < 256))
    (h1 : (valuesKeys q).Nodup) (h2 : ∀ kv ∈ q, kv.2 ≠ [])
    (h3 : ∀ kv ∈ q, (∀ x ∈ kv.1, x < 256) ∧ ∀ v2 ∈ kv.2, ∀ x ∈ v2, x < 256) :
    (valuesKeys (params.foldl (fun acc kv => valuesSet acc kv.1 kv.2) q)).Nodup ∧
    (∀ kv ∈ params.foldl (fun acc kv => valuesSet acc kv.1 kv.2) q, kv.2 ≠ []) ∧
    (∀ kv ∈ params.foldl (fun acc kv => valuesSet acc kv.1 kv.2) q,
      (∀ x ∈ kv.1, x < 256) ∧ ∀ v2 ∈ kv.2, ∀ x ∈ v2, x < 256) := by
  induction params generalizing q with
  | nil => exact ⟨h1, h2, h3⟩
  | cons p rest ih =>
      obtain ⟨g1, g2, g3⟩ := valuesSet_props q p.1 p.2 (hp p (by simp)).1
        (hp p (by simp)).2 h1 h2 h3
      exact ih (valuesSet q p.1 p.2) (fun kv hkv => hp kv (by simp [hkv]))
        g1 g2 g3

/-! Separator freedom of the encoded query. -/

theorem joinSep_mem (sep : Nat) (comps : List ByteList) :
    ∀ x ∈ joinSep sep comps, x = sep ∨ ∃ c ∈ comps, x ∈ c := by
  induction comps with
  | nil =>
      intro x hx
      cases hx
  | cons c cs ih =>
      cases cs with
      | nil =>
          intro x hx
          exact Or.inr ⟨c, by simp, hx⟩
      | cons c2 cs2 =>
          intro x hx
          show x = sep ∨ ∃ c3 ∈ c :: c2 :: cs2, x ∈ c3
          rcases List.mem_append.mp hx with h4 | h4
          · exact Or.inr ⟨c, by simp, h4⟩
          · rcases List.mem_cons.mp h4 with rfl | h5
            · exact Or.inl rfl
            · rcases ih x h5 with h6 | ⟨c3, hc3, hxc3⟩
              · exact Or.inl h6
              · exact Or.inr ⟨c3, by simp [hc3], hxc3⟩

theorem valuesEncode_no_sep (Q : Values)
    (hlt : ∀ kv ∈ Q, (∀ x ∈ kv.1, x < 256) ∧ ∀ v ∈ kv.2, ∀ x ∈ v, x < 256) :
    ∀ x ∈ valuesEncode Q, x ≠ 35 ∧ x ≠ 63 := by
  have hlt2 : ∀ kv ∈ sortByKey Q, (∀ x ∈ kv.1, x < 256) ∧
      ∀ v ∈ kv.2, ∀ x ∈ v, x < 256 :=
    fun kv hkv => hlt kv ((sortByKey_perm Q).mem_iff.mp hkv)
  intro x hx
  unfold valuesEncode at hx
  rcases joinSep_mem 38 _ x hx with rfl | ⟨c, hc, hxc⟩
  · exact ⟨by decide, by decide⟩
  · rcases List.mem_flatMap.mp hc with ⟨q, hq, hcq⟩
    rcases List.mem_map.mp hcq with ⟨v, hv, rfl⟩
    rcases List.mem_append.mp hxc with h4 | h4
    · have hfree := queryEscape_sep_free q.1 (hlt2 q hq).1 x h4
      exact ⟨hfree.2.2.2.2.1, hfree.2.2.2.2.2⟩
    · rcases List.mem_cons.mp h4 with rfl | h5
      · exact ⟨by decide, by decide⟩
      · have hfree := queryEscape_sep_free v ((hlt2 q hq).2 v hv) x h5
        exact ⟨hfree.2.2.2.2.1, hfree.2.2.2.2.2⟩

/-! parseUrl facts and URL reassembly. -/

theorem parseUrl_ok_facts (uri : ByteList) (u : UrlParts)
    (h : parseUrl uri = .ok u) :
    queryPartOf uri = u.rawQuery ∧
    (35 : Nat) ∉ u.base ∧ (63 : Nat) ∉ u.base ∧
    (∀ x ∈ u.rawQuery, x ∈ uri) := by
  unfold parseUrl at h
  by_cases hctl : uri.any (fun b => b < 32 || b = 127) = true
  · rw [if_pos hctl] at h
    exact Except.noConfusion h
  · rw [if_neg hctl] at h
    by_cases hforce : (cutByte 35 uri).1.getLast? = some 63 ∧
        (cutByte 35 uri).1.count 63 = 1
    · rw [if_pos hforce] at h
      cases h
      have hne : (cutByte 35 uri).1 ≠ [] := by
        intro h0
        rw [h0] at hforce
        exact Option.noConfusion hforce.1
      have hlast : (cutByte 35 uri).1.getLast hne = 63 := by
        have hl := hforce.1
        rw [List.getLast?_eq_getLast _ hne] at hl
        exact Option.some.inj hl
      have heq : (cutByte 35 uri).1 =
          (cutByte 35 uri).1.dropLast ++ [63] := by
        conv_lhs => rw [← List.dropLast_append_getLast hne]
        rw [hlast]
      have h63 : (63 : Nat) ∉ (cutByte 35 uri).1.dropLast := by
        have hcount := hforce.2
        rw [heq, List.count_append] at hcount
        have hone : ([63] : ByteList).count 63 = 1 := by rfl
        rw [hone] at hcount
        have hz : (cutByte 35 uri).1.dropLast.count 63 = 0 := by omega
        exact List.count_eq_zero.mp hz
      refine ⟨?_, ?_, h63, ?_⟩
      · unfold queryPartOf
        rw [heq, cutByte_sep 63 _ _ h63]
      · intro hmem
        exact cutByte_fst_not_mem 35 uri
          (heq ▸ List.mem_append.mpr (Or.inl hmem))
      · intro x hx
        cases hx
    · rw [if_neg hforce] at h
      cases h
      refine ⟨rfl, ?_, cutByte_fst_not_mem 63 _, ?_⟩
      · intro hmem
        exact cutByte_fst_not_mem 35 uri
          ((cutByte_subset 63 (cutByte 35 uri).1).1 35 hmem)
      · intro x hx
        exact (cutByte_subset 35 uri).1 x
          ((cutByte_subset 63 (cutByte 35 uri).1).2 x hx)

theorem queryPartOf_assemble (base rawQuery frag : ByteList)
    (hb35 : (35 : Nat) ∉ base) (hb63 : (63 : Nat) ∉ base)
    (hq35 : (35 : Nat) ∉ rawQuery) :
    queryPartOf (base ++ (63 :: rawQuery) ++
      (if frag ≠ [] then 35 :: frag else [])) = rawQuery := by
  have h35qp : (35 : Nat) ∉ base ++ 63 :: rawQuery := by
    intro hmem
    rcases List.mem_append.mp hmem with h4 | h4
    · exact hb35 h4
    · rcases List.mem_cons.mp h4 with h5 | h5
      · exact absurd h5 (by decide)
      · exact hq35 h5
  unfold queryPartOf
  by_cases hfr : frag ≠ []
  · rw [if_pos hfr, cutByte_sep 35 _ _ h35qp]
    show (cutByte 63 (base ++ 63 :: rawQuery)).2 = rawQuery
    rw [cutByte_sep 63 base rawQuery hb63]
  · rw [if_neg hfr, List.append_nil, cutByte_not_mem 35 _ h35qp]
    show (cutByte 63 (base ++ 63 :: rawQuery)).2 = rawQuery
    rw [cutByte_sep 63 base rawQuery hb63]

theorem queryPartOf_assemble_noq (base frag : ByteList)
    (hb35 : (35 : Nat) ∉ base) (hb63 : (63 : Nat) ∉ base) :
    queryPartOf (base ++ (if frag ≠ [] then 35 :: frag else [])) = [] := by
  unfold queryPartOf
  by_cases hfr : frag ≠ []
  · rw [if_pos hfr, cutByte_sep 35 _ _ hb35]
    show (cutByte 63 base).2 = []
    rw [cutByte_not_mem 63 base hb63]
  · rw [if_neg hfr, List.append_nil, cutByte_not_mem 35 _ hb35]
    show (cutByte 63 base).2 = []
    rw [cutByte_not_mem 63 base hb63]

theorem queryPartOf_uString (u : UrlParts) (hb35 : (35 : Nat) ∉ u.base)
    (hb63 : (63 : Nat) ∉ u.base) (hq35 : (35 : Nat) ∉ u.rawQuery) :
    queryPartOf (uString u) = u.rawQuery := by
  obtain ⟨base, rawQuery, frag, forceQuery⟩ := u
  simp only at hb35 hb63 hq35
  unfold uString
  simp only
  cases forceQuery with
  | true =>
      simp only [Bool.true_or, if_true]
      exact queryPartOf_assemble base rawQuery frag hb35 hb63 hq35
  | false =>
      simp only [Bool.false_or]
      by_cases hrq : rawQuery = []
      · subst hrq
        rw [if_neg (by simp), List.append_nil]
        exact queryPartOf_assemble_noq base frag hb35 hb63
      · rw [if_pos (by simp [hrq])]
        exact queryPartOf_assemble base rawQuery frag hb35 hb63 hq35

/-- C6: query-parameter merging.  For a byte-valid URL and well-formed params
map: a URL parse failure is exactly what makes the merge fail (and the
pipeline surfaces it as the malformed-URL error); on success, every supplied
key is present in the final URL's query with exactly its supplied value
(overwriting any same-named key of the original query), and every key not
supplied keeps the value set it had in the original URL's query. -/
theorem queryMerge (uri : ByteList) (params : List (ByteList × ByteList))
    (h1 : ∀ b ∈ uri, b < 256)
    (h2 : ∀ kv ∈ params, (∀ b ∈ kv.1, b < 256) ∧ (∀ b ∈ kv.2, b < 256))
    (h3 : (params.map Prod.fst).Nodup) :
    (∀ e, parseUrl uri = .error e → appendParams uri params = .error e) ∧
    (∀ e, appendParams uri params = .error e → parseUrl uri = .error e) ∧
    (∀ (cs : Codecs) (ch hdrs : List (String × List String)) (method : String),
      parseUrl uri = .error () →
      doRequest cs ch method uri ⟨hdrs, some params, none⟩ =
        .error .malformedUrl) ∧
    (∀ out, appendParams uri params = .ok out →
      (∀ kv ∈ params,
        valuesGet? (parseQuery (queryPartOf out)) kv.1 = some [kv.2]) ∧
      (∀ k, (∀ kv ∈ params, kv.1 ≠ k) →
        valuesGet? (parseQuery (queryPartOf out)) k =
          valuesGet? (parseQuery (queryPartOf uri)) k)) := by
  have herr : ∀ e, parseUrl uri = .error e →
      appendParams uri params = .error e := by
    intro e hperr
    unfold appendParams
    rw [hperr]
  refine ⟨herr, ?_, ?_, ?_⟩
  · intro e he
    unfold appendParams at he
    cases hp : parseUrl uri with
    | error e2 =>
        rw [hp] at he
    | ok u =>
        rw [hp] at he
        exact Except.noConfusion he
  · intro cs ch hdrs method hperr
    have happ := herr () hperr
    simp only [doRequest, Option.isSome_none, Bool.and_false,
      Bool.false_eq_true, if_false, withDefaultCT, Bool.false_and]
    simp only [happ]
  · intro out hout
    unfold appendParams at hout
    cases hp : parseUrl uri with
    | error e2 =>
        rw [hp] at hout
        exact Except.noConfusion hout
    | ok u =>
        rw [hp] at hout
        cases hout
        obtain ⟨hqp, hb35, hb63, hsub⟩ := parseUrl_ok_facts uri u hp
        obtain ⟨hq1, hq2, hq3⟩ := parseQuery_props u.rawQuery
          (fun b hb => h1 b (hsub b hb))
        obtain ⟨hm1, hm2, hm3⟩ := foldl_valuesSet_props params
          (parseQuery u.rawQuery) h2 hq1 hq2 hq3
        have hnosep := valuesEncode_no_sep
          (params.foldl (fun acc kv => valuesSet acc kv.1 kv.2)
            (parseQuery u.rawQuery)) hm3
        have hqps : queryPartOf (uString ⟨u.base,
            valuesEncode (params.foldl (fun acc kv => valuesSet acc kv.1 kv.2)
              (parseQuery u.rawQuery)), u.frag, u.forceQuery⟩) =
            valuesEncode (params.foldl (fun acc kv => valuesSet acc kv.1 kv.2)
              (parseQuery u.rawQuery)) := by
          apply queryPartOf_uString
          · exact hb35
          · exact hb63
          · intro hmem
            exact (hnosep 35 hmem).1 rfl
        rw [hqps, parseQuery_valuesEncode _ hm1 hm2 hm3]
        constructor
        · intro kv hkv
          rw [valuesGet?_sortByKey _ kv.1 hm1]
          exact valuesGet?_foldl_valuesSet_mem params (parseQuery u.rawQuery)
            kv.1 kv.2 hkv h3
        · intro k hk
          rw [valuesGet?_sortByKey _ k hm1,
            valuesGet?_foldl_valuesSet_not_mem params _ k hk, hqp]

/-- Witness for `queryMerge` at the URL `a?x=1&y=2` (bytes) with the single
parameter `x=3`: in the merged URL the supplied key `x` carries `3`
(overwriting `1`) and the untouched key `y` keeps its original value. -/
theorem queryMerge_witness :
    valuesGet? (parseQuery (queryPartOf [97, 63, 120, 61, 51, 38, 121, 61, 50]))
      [120] = some [[51]] ∧
    valuesGet? (parseQuery (queryPartOf [97, 63, 120, 61, 51, 38, 121, 61, 50]))
      [121] =
      valuesGet? (parseQuery (queryPartOf [97, 63, 120, 61, 49, 38, 121, 61, 50]))
        [121] := by
  have h := (queryMerge [97, 63, 120, 61, 49, 38, 121, 61, 50] [([120], [51])]
    (by decide) (by decide) (by decide)).2.2.2
    [97, 63, 120, 61, 51, 38, 121, 61, 50] (by decide)
  exact ⟨h.1 ([120], [51]) (by decide), h.2 [121] (by decide)⟩

end Httpx
